import Mathlib

/-!
# Verification of the IB Lab Grading Assistant core pipeline

A shallow embedding of `IB_lab_assistant.py` over `List Char`, together with
theorems settling the frozen claims about the program.

Python strings are modelled as `List Char` (Lean `Char` = Unicode scalar value,
matching Python's code-point strings; `len` = `List.length`).  The regular
expressions of the source are embedded as hand-specialised matchers that follow
Python `re` backtracking semantics for the concrete pattern in question; each
place where a greedy/lazy quantifier is implemented deterministically carries a
comment justifying equivalence with full backtracking for that pattern.

Python `float` values are modelled by exact decimal numbers `DecV`
(`m / 10^e`).  On the domain used by the theorems below — scores given with at
most one decimal digit, in half-point steps, totals ≤ 100 — IEEE-754 binary64
arithmetic is exact (halves of this magnitude are dyadic rationals), so the
exact-decimal model coincides with Python's float semantics there.
-/

/-- Python strings as lists of Unicode code points. -/
abbrev Str := List Char

/-- Literal helper: the character data of a string literal. -/
def strOf (s : String) : Str := s.data

/-- Python's `\s` / `str.strip()` whitespace set (ASCII part; the source only
ever meets ASCII whitespace). -/
def isSpaceC (c : Char) : Bool :=
  c == ' ' || c == '\t' || c == '\n' || c == '\r' || c == '\x0b' || c == '\x0c'

/-- Python's `\d` (ASCII digits, which is all the source's text contains). -/
def isDigitC (c : Char) : Bool := c.isDigit

/-- The character class `[\d\.]` of the header pattern. -/
def isDigitDotC (c : Char) : Bool := c.isDigit || c == '.'

/-- Decimal digit character. -/
def digitChar (d : ℕ) : Char := Char.ofNat (48 + d)

/-- Decimal digits of `n`, most significant first (`str(n)` for naturals).
Fuel-based so that it reduces in the kernel; `natDigits` supplies enough fuel. -/
def natDigitsAux : ℕ → ℕ → Str
  | 0, _ => []
  | fuel + 1, n => if n < 10 then [digitChar n] else natDigitsAux fuel (n / 10) ++ [digitChar (n % 10)]

/-- `str(n)` for a natural number. -/
def natDigits (n : ℕ) : Str := natDigitsAux (n + 1) n

/-- Numeric value of a digit string (`int(s)` on all-digit input). -/
def digitsVal (s : Str) : ℕ := s.foldl (fun a c => 10 * a + (c.toNat - 48)) 0

/-- Python `str.strip()`: drop leading and trailing whitespace. -/
def pyStrip (l : Str) : Str := ((l.dropWhile isSpaceC).reverse.dropWhile isSpaceC).reverse

/-- Python `str.lower()` (ASCII case folding; filenames in scope are ASCII). -/
def lowerStr (s : Str) : Str := s.map Char.toLower

/- ### Basic lemmas about digits -/

theorem digitChar_isDigit {d : ℕ} (h : d < 10) : (digitChar d).isDigit = true := by
  unfold digitChar Char.isDigit
  interval_cases d <;> decide

theorem natDigitsAux_digits (fuel n : ℕ) : ∀ c ∈ natDigitsAux fuel n, c.isDigit = true := by
  induction fuel generalizing n with
  | zero => intro c hc; simp [natDigitsAux] at hc
  | succ fuel ih =>
    intro c hc
    unfold natDigitsAux at hc
    by_cases h : n < 10
    · simp [h] at hc
      subst hc; exact digitChar_isDigit h
    · simp [h] at hc
      rcases hc with hc | hc
      · exact ih _ c hc
      · subst hc; exact digitChar_isDigit (Nat.mod_lt _ (by norm_num))

theorem natDigits_digits (n : ℕ) : ∀ c ∈ natDigits n, c.isDigit = true :=
  natDigitsAux_digits _ n

theorem natDigitsAux_ne_nil (fuel n : ℕ) (h : 0 < fuel) : natDigitsAux fuel n ≠ [] := by
  cases fuel with
  | zero => omega
  | succ fuel =>
    unfold natDigitsAux
    by_cases h10 : n < 10 <;> simp [h10]

theorem natDigits_ne_nil (n : ℕ) : natDigits n ≠ [] :=
  natDigitsAux_ne_nil _ n (Nat.succ_pos n)

theorem digitsVal_append_singleton (s : Str) (c : Char) :
    digitsVal (s ++ [c]) = 10 * digitsVal s + (c.toNat - 48) := by
  simp [digitsVal, List.foldl_append]

theorem digitChar_toNat {d : ℕ} (h : d < 10) : (digitChar d).toNat = 48 + d := by
  unfold digitChar
  interval_cases d <;> decide

theorem digitsVal_natDigitsAux (fuel n : ℕ) (h : n < fuel) :
    digitsVal (natDigitsAux fuel n) = n := by
  induction fuel generalizing n with
  | zero => omega
  | succ fuel ih =>
    unfold natDigitsAux
    by_cases h10 : n < 10
    · simp [h10, digitsVal, digitChar_toNat h10]
    · simp only [h10, if_false]
      rw [digitsVal_append_singleton, ih (n / 10) (by omega),
        digitChar_toNat (Nat.mod_lt _ (by norm_num))]
      omega

theorem digitsVal_natDigits (n : ℕ) : digitsVal (natDigits n) = n :=
  digitsVal_natDigitsAux _ n (Nat.lt_succ_self n)

/- ### Exact decimal numbers standing for Python floats -/

/-- An exact decimal number `m / 10^e`.  Models the Python floats flowing
through `recalculate_total_score` (see the header comment for the domain on
which this is bit-faithful to binary64). -/
structure DecV where
  m : ℕ
  e : ℕ
  deriving DecidableEq, Repr

/-- Exact decimal addition (Python `+` / `sum` on the faithful domain). -/
def decAdd (a b : DecV) : DecV :=
  ⟨a.m * 10 ^ (max a.e b.e - a.e) + b.m * 10 ^ (max a.e b.e - b.e), max a.e b.e⟩

/-- Strip trailing decimal zeros: the canonical form of the represented value
(recursion on the exponent, which bounds the number of strippable zeros). -/
def decNormAux : ℕ → ℕ → DecV
  | m, 0 => ⟨m, 0⟩
  | m, e + 1 => if m % 10 = 0 then decNormAux (m / 10) e else ⟨m, e + 1⟩

def decNorm (d : DecV) : DecV := decNormAux d.m d.e

/-- `float.is_integer()`: the value has no fractional part. -/
def decIsInt (d : DecV) : Bool := (decNorm d).e == 0

/- ### The Content Extractor's low-text system note (grade_submission, docx branch) -/

/-- The suffix appended when almost no text was extracted
(`"\n\n[SYSTEM NOTE: Very little text extracted.]"`). -/
def sysNote : Str := strOf "\n\n[SYSTEM NOTE: Very little text extracted.]"

/-- `grade_submission`, docx branch: the text content, with the system-note
suffix appended when the stripped extraction is shorter than 50 characters
(`if len(text_content.strip()) < 50`). -/
def docxTextContent (extracted : Str) : Str :=
  if (pyStrip extracted).length < 50 then extracted ++ sysNote else extracted

/-- `grade_submission`, docx branch: the full prompt text
(`f"{user_instructions}\n" + "--- RUBRIC START ---\n" + IB_RUBRIC +
"\n--- RUBRIC END ---\n\n" + "STUDENT TEXT:\n" + text_content`).
The opaque configuration strings (instructions, rubric) are parameters. -/
def docxPrompt (instr rubric extracted : Str) : Str :=
  instr ++ strOf "\n" ++ strOf "--- RUBRIC START ---\n" ++ rubric ++
    strOf "\n--- RUBRIC END ---\n\n" ++ strOf "STUDENT TEXT:\n" ++ docxTextContent extracted

/- ### get_media_type -/

/-- `filename.lower().split('.')[-1]`: the text after the last dot (the whole
string when there is no dot), as `str.split` keeps the final component. -/
def afterLastDot (s : Str) : Str := (s.reverse.takeWhile (fun c => c ≠ '.')).reverse

/-- The `media_types` dictionary of `get_media_type`. -/
def mediaTypes : List (Str × Str) :=
  [ (strOf "png", strOf "image/png"), (strOf "jpg", strOf "image/jpeg")
  , (strOf "jpeg", strOf "image/jpeg"), (strOf "gif", strOf "image/gif")
  , (strOf "webp", strOf "image/webp"), (strOf "pdf", strOf "application/pdf") ]

/-- `get_media_type`: dictionary lookup with default `'image/jpeg'`. -/
def getMediaType (filename : Str) : Str :=
  ((mediaTypes.lookup (afterLastDot (lowerStr filename))).getD (strOf "image/jpeg"))

/- ### Claims C8 and C9 -/

/-- **C8.** For every word-processor document whose extracted text, after
stripping surrounding whitespace, is shorter than 50 characters, the content
payload sent to the grader ends with the explicit system-note suffix (it is
appended verbatim at the very end); documents at or above the threshold
receive no such suffix (the payload is exactly the prompt around the
unmodified extracted text). -/
theorem c8_docx_low_text_system_note (instr rubric extracted : Str) :
    ((pyStrip extracted).length < 50 →
      docxPrompt instr rubric extracted =
        (instr ++ strOf "\n" ++ strOf "--- RUBRIC START ---\n" ++ rubric ++
          strOf "\n--- RUBRIC END ---\n\n" ++ strOf "STUDENT TEXT:\n" ++ extracted) ++ sysNote)
    ∧ (50 ≤ (pyStrip extracted).length →
      docxPrompt instr rubric extracted =
        instr ++ strOf "\n" ++ strOf "--- RUBRIC START ---\n" ++ rubric ++
          strOf "\n--- RUBRIC END ---\n\n" ++ strOf "STUDENT TEXT:\n" ++ extracted) := by
  constructor
  · intro h
    simp [docxPrompt, docxTextContent, h, List.append_assoc]
  · intro h
    have h' : ¬ (pyStrip extracted).length < 50 := by omega
    simp [docxPrompt, docxTextContent, h']

/-- Witness for C8: a concrete short extraction gets the note; a concrete
50-character extraction does not. -/
theorem c8_docx_low_text_system_note_witness :
    (docxPrompt [] [] (strOf "hi") =
      (([] : Str) ++ strOf "\n" ++ strOf "--- RUBRIC START ---\n" ++ ([] : Str) ++
        strOf "\n--- RUBRIC END ---\n\n" ++ strOf "STUDENT TEXT:\n" ++ strOf "hi") ++ sysNote)
    ∧ (docxPrompt [] [] (List.replicate 50 'a') =
      ([] : Str) ++ strOf "\n" ++ strOf "--- RUBRIC START ---\n" ++ ([] : Str) ++
        strOf "\n--- RUBRIC END ---\n\n" ++ strOf "STUDENT TEXT:\n" ++ List.replicate 50 'a') :=
  ⟨(c8_docx_low_text_system_note [] [] (strOf "hi")).1 (by decide),
   (c8_docx_low_text_system_note [] [] (List.replicate 50 'a')).2 (by decide)⟩

/-- **C9.** For every filename whose extension (the text after the last dot,
lowercased) is not one of png, jpg, jpeg, gif, webp, pdf, `get_media_type`
returns the default media type `'image/jpeg'`. -/
theorem c9_media_type_default (filename : Str)
    (h : afterLastDot (lowerStr filename) ∉
      [strOf "png", strOf "jpg", strOf "jpeg", strOf "gif", strOf "webp", strOf "pdf"]) :
    getMediaType filename = strOf "image/jpeg" := by
  unfold getMediaType
  simp only [List.mem_cons, List.not_mem_nil, or_false, not_or] at h
  obtain ⟨h1, h2, h3, h4, h5, h6⟩ := h
  unfold mediaTypes
  simp only [List.lookup]
  have eqF : ∀ a : Str, afterLastDot (lowerStr filename) ≠ a →
      (afterLastDot (lowerStr filename) == a) = false := by
    intro a ha; exact beq_false_of_ne ha
  rw [eqF _ h1, eqF _ h2, eqF _ h3, eqF _ h4, eqF _ h5, eqF _ h6]
  rfl

/-- Witness for C9: `notes.txt` has extension `txt`, not in the table, and maps
to the default `image/jpeg`. -/
theorem c9_media_type_default_witness :
    getMediaType (strOf "notes.txt") = strOf "image/jpeg" :=
  c9_media_type_default (strOf "notes.txt") (by decide)

/- ### The File Normalizer: process_uploaded_files -/

/-- An uploaded file: a regular file, or a zip archive with its entry names
(`zipfile.ZipFile.namelist()` order).  Only the names matter to the
filtering/counting logic under verification. -/
inductive Upload where
  | file (name : Str)
  | zipA (name : Str) (entries : List Str)

/-- The per-category counters of `process_uploaded_files`. -/
structure FileCounts where
  pdf : ℕ
  docx : ℕ
  image : ℕ
  ignored : ℕ
  deriving DecidableEq, Repr

/-- `IGNORED_FILES = {'.ds_store', 'desktop.ini', 'thumbs.db', '__macosx'}`. -/
def IGNORED_FILES : List Str :=
  [strOf ".ds_store", strOf "desktop.ini", strOf "thumbs.db", strOf "__macosx"]

/-- `VALID_EXTENSIONS = {'pdf', 'png', 'jpg', 'jpeg', 'gif', 'webp', 'docx'}`. -/
def VALID_EXTENSIONS : List Str :=
  [strOf "pdf", strOf "png", strOf "jpg", strOf "jpeg", strOf "gif", strOf "webp", strOf "docx"]

/-- `os.path.basename` for the forward-slash paths found inside zip archives. -/
def basenameS (s : Str) : Str := (s.reverse.takeWhile (fun c => c ≠ '/')).reverse

/-- Python's substring test `needle in hay`. -/
def infixOfC (needle : Str) : Str → Bool
  | [] => needle.isEmpty
  | c :: r => needle.isPrefixOf (c :: r) || infixOfC needle r

/-- Count one accepted file into the proper category
(`if ext == 'docx' ... elif ext == 'pdf' ... else image`). -/
def countExt (ext : Str) (cts : FileCounts) : FileCounts :=
  if ext = strOf "docx" then { cts with docx := cts.docx + 1 }
  else if ext = strOf "pdf" then { cts with pdf := cts.pdf + 1 }
  else { cts with image := cts.image + 1 }

/-- One zip entry of the inner loop of `process_uploaded_files`:
junk/dotfile entries and entries with non-valid extensions are skipped
(without touching any counter); valid entries are surfaced under their base
name and counted. -/
def processZipEntry (acc : List Str × FileCounts) (entry : Str) : List Str × FileCounts :=
  let cleanName := lowerStr entry
  if IGNORED_FILES.any (fun x => infixOfC x cleanName) || entry.take 1 = strOf "." then acc
  else
    let ext := afterLastDot cleanName
    if ext ∈ VALID_EXTENSIONS then (acc.1 ++ [basenameS entry], countExt ext acc.2)
    else acc

/-- One top-level upload of `process_uploaded_files`: platform-junk names are
silently skipped, zip archives are expanded one level via `processZipEntry`,
and other files are accepted (and counted) or counted as ignored by
extension. -/
def processUpload (acc : List Str × FileCounts) (u : Upload) : List Str × FileCounts :=
  let nameLower := lowerStr (match u with | .file n => n | .zipA n _ => n)
  if nameLower ∈ IGNORED_FILES || nameLower.take 2 = strOf "._" then acc
  else
    match u with
    | .zipA _ entries =>
      if (strOf ".zip").isSuffixOf nameLower then entries.foldl processZipEntry acc
      else
        -- a zip archive whose name does not end in .zip follows the plain-file path;
        -- its extension is then not valid, so it is counted as ignored
        (acc.1, { acc.2 with ignored := acc.2.ignored + 1 })
    | .file n =>
      let ext := afterLastDot nameLower
      if ext ∈ VALID_EXTENSIONS then (acc.1 ++ [n], countExt ext acc.2)
      else (acc.1, { acc.2 with ignored := acc.2.ignored + 1 })

/-- `process_uploaded_files`: returns the accepted file names in order and the
category counts. -/
def processUploadedFiles (ups : List Upload) : List Str × FileCounts :=
  ups.foldl processUpload ([], ⟨0, 0, 0, 0⟩)

/- ### Claim C4 -/

/-- The concrete upload of claim C4: one zip with entries
`a.pdf`, `.DS_Store`, `notes.txt`. -/
def c4Upload : List Upload :=
  [Upload.zipA (strOf "bundle.zip") [strOf "a.pdf", strOf ".DS_Store", strOf "notes.txt"]]

/-- **C4, counterexample.** The claim asserts the returned `ignored` count is 1
(counting `notes.txt`).  In the code, the zip-entry loop never touches the
`ignored` counter — only top-level non-archive files do — so the count is 0,
not 1. -/
theorem c4_counterexample : ¬ ((processUploadedFiles c4Upload).2.ignored = 1) := by
  decide

/-- **C4, amended.** Given a single zip archive with exactly the entries
`a.pdf`, `.DS_Store`, `notes.txt`, the output list contains exactly one
accepted virtual file (`a.pdf`, counted as a pdf) and the `ignored` count is 0:
both the junk dotfile and the unsupported `notes.txt` are silently dropped
without being counted. -/
theorem c4_zip_filtering :
    processUploadedFiles c4Upload = ([strOf "a.pdf"], ⟨1, 0, 0, 0⟩) := by
  decide

/- ### The Post-Processor, step 1: clean_hidden_math -/

/-- Find the first occurrence of the (nonempty, concrete) closing delimiter
`c` and return the suffix after it — the landing point of a non-greedy
`.*?` with `re.DOTALL` in front of a literal. -/
def findCloseFrom (c : Str) : Str → Option Str
  | [] => none
  | x :: xs => if c.isPrefixOf (x :: xs) then some ((x :: xs).drop c.length) else findCloseFrom c xs

theorem findCloseFrom_length_le (c : Str) :
    ∀ l r, findCloseFrom c l = some r → r.length ≤ l.length := by
  intro l
  induction l with
  | nil => intro r h; simp [findCloseFrom] at h
  | cons x xs ih =>
    intro r h
    unfold findCloseFrom at h
    by_cases hp : c.isPrefixOf (x :: xs)
    · simp [hp] at h
      subst h
      simp [List.length_drop]
    · simp [hp] at h
      exact Nat.le_succ_of_le (ih r h)

/-- `re.sub(opener-dotall-lazy-closer, '', text)`: scan left to right; at each
position where the opener (a nonempty literal, split as first char `o0` and
tail `oR`) matches, drop through the nearest closer and continue after it; if
the opener matches but no closer follows, the regex fails at this position and
scanning resumes at the next character.  Fuel-based (the input length is always
sufficient fuel, see `stripBlocks_cons`). -/
def stripBlocksAux (o0 : Char) (oR c : Str) : ℕ → Str → Str
  | 0, l => l
  | fuel + 1, l =>
    match l with
    | [] => []
    | x :: xs =>
      if (o0 :: oR).isPrefixOf (x :: xs) then
        match findCloseFrom c (xs.drop oR.length) with
        | some rest => stripBlocksAux o0 oR c fuel rest
        | none => x :: stripBlocksAux o0 oR c fuel xs
      else x :: stripBlocksAux o0 oR c fuel xs

def stripBlocks (o0 : Char) (oR c : Str) (l : Str) : Str := stripBlocksAux o0 oR c l.length l

theorem stripBlocksAux_fuel (o0 : Char) (oR c : Str) :
    ∀ f₁ f₂ l, l.length ≤ f₁ → l.length ≤ f₂ →
      stripBlocksAux o0 oR c f₁ l = stripBlocksAux o0 oR c f₂ l := by
  intro f₁
  induction f₁ with
  | zero =>
    intro f₂ l h1 _
    have : l = [] := List.length_eq_zero.mp (Nat.le_zero.mp h1)
    subst this
    cases f₂ <;> simp [stripBlocksAux]
  | succ f₁ ih =>
    intro f₂ l h1 h2
    cases l with
    | nil => cases f₂ <;> simp [stripBlocksAux]
    | cons x xs =>
      cases f₂ with
      | zero => simp at h2
      | succ f₂ =>
        have hx : xs.length ≤ f₁ := by
          simp only [List.length_cons] at h1; omega
        have hx2 : xs.length ≤ f₂ := by
          simp only [List.length_cons] at h2; omega
        simp only [stripBlocksAux]
        by_cases hp : (o0 :: oR).isPrefixOf (x :: xs)
        · rw [if_pos hp, if_pos hp]
          cases hfc : findCloseFrom c (xs.drop oR.length) with
          | none => rw [ih f₂ xs hx hx2]
          | some rest =>
            have hr : rest.length ≤ xs.length := by
              have := findCloseFrom_length_le c _ _ hfc
              have hd : (xs.drop oR.length).length ≤ xs.length := by
                simp [List.length_drop]
              omega
            exact ih f₂ rest (le_trans hr hx) (le_trans hr hx2)
        · rw [if_neg hp, if_neg hp, ih f₂ xs hx hx2]

theorem stripBlocks_nil (o0 : Char) (oR c : Str) : stripBlocks o0 oR c [] = [] := rfl

/-- The one-step unfolding of `stripBlocks` (proved once; all later reasoning
uses this equation and never mentions fuel). -/
theorem stripBlocks_cons (o0 : Char) (oR c : Str) (x : Char) (xs : Str) :
    stripBlocks o0 oR c (x :: xs) =
      if (o0 :: oR).isPrefixOf (x :: xs) then
        match findCloseFrom c (xs.drop oR.length) with
        | some rest => stripBlocks o0 oR c rest
        | none => x :: stripBlocks o0 oR c xs
      else x :: stripBlocks o0 oR c xs := by
  show stripBlocksAux o0 oR c (xs.length + 1) (x :: xs) = _
  simp only [stripBlocksAux]
  by_cases hp : (o0 :: oR).isPrefixOf (x :: xs)
  · simp only [hp, if_true]
    cases hfc : findCloseFrom c (xs.drop oR.length) with
    | none => rfl
    | some rest =>
      simp only []
      have hr : rest.length ≤ xs.length := by
        have := findCloseFrom_length_le c _ _ hfc
        have hd : (xs.drop oR.length).length ≤ xs.length := by
          simp [List.length_drop]
        omega
      exact stripBlocksAux_fuel o0 oR c xs.length rest.length rest hr le_rfl
  · simp only [hp, if_false]
    rfl

/-- Tail of the first historical delimiter `<math_scratchpad>`. -/
def open1R : Str := strOf "math_scratchpad>"

def close1 : Str := strOf "</math_scratchpad>"

/-- Tail of the second historical delimiter `<<<MATH:`. -/
def open2R : Str := strOf "<<MATH:"

def close2 : Str := strOf ">>>"

/-- `clean_hidden_math`: remove `<math_scratchpad>...</math_scratchpad>`
blocks, then `<<<MATH:...>>>` blocks (both non-greedy, DOTALL), then
`str.strip()` the result. -/
def cleanHiddenMath (t : Str) : Str :=
  pyStrip (stripBlocks '<' open2R close2 (stripBlocks '<' open1R close1 t))

example : cleanHiddenMath (strOf "a<math_scratchpad>1+1=2</math_scratchpad>b") = strOf "ab" := by
  decide

example : cleanHiddenMath (strOf "x <<<MATH: 3*3 >>> y") = strOf "x  y" := by decide

/- ### Claim C3: scratch-work removal -/

/-- **C3, counterexample.** The claim says an input with no scratch blocks
passes through `clean_hidden_math` unchanged, but the function ends with
`str.strip()`: the block-free input `" x "` comes out as `"x"`. -/
theorem c3_counterexample :
    cleanHiddenMath (strOf " x ") ≠ strOf " x "
    ∧ cleanHiddenMath (strOf " x ") = strOf "x" := by
  constructor
  · decide
  · decide

/-- A well-formed piece of feedback text: literal text, or a scratch block in
one of the two historical delimiter conventions. -/
inductive Chunk where
  | plain (s : Str)
  | scratch (body : Str)
  | mathB (body : Str)

/-- Rendering a chunk back to text. -/
def renderChunk : Chunk → Str
  | .plain s => s
  | .scratch b => '<' :: open1R ++ b ++ close1
  | .mathB b => '<' :: open2R ++ b ++ close2

def renderChunks (cs : List Chunk) : Str := (cs.map renderChunk).flatten

/-- The text outside all scratch blocks, in order. -/
def plainText (cs : List Chunk) : Str := (cs.map (fun ch => match ch with | .plain s => s | _ => [])).flatten

/-- Well-formedness: literal text and scratch bodies contain no `'<'` (so no
delimiter can start inside them or straddle a boundary), and `<<<MATH:` bodies
contain no `'>'` (so the closing `>>>` is the first one found). -/
def chunkOkB : Chunk → Bool
  | .plain s => s.all (fun x => x ≠ '<')
  | .scratch b => b.all (fun x => x ≠ '<')
  | .mathB b => b.all (fun x => x ≠ '<' && x ≠ '>')

theorem isPrefixOf_append_self (p r : Str) : p.isPrefixOf (p ++ r) = true := by
  induction p with
  | nil => simp [List.isPrefixOf]
  | cons a as ih => simp [List.isPrefixOf, ih]

theorem isPrefixOf_cons_ne {a : Char} (as : Str) {y : Char} (ys : Str) (h : y ≠ a) :
    (a :: as).isPrefixOf (y :: ys) = false := by
  simp [List.isPrefixOf]
  intro hay
  exact absurd hay.symm h

/-- Scanning passes over characters that cannot start the opener. -/
theorem stripBlocks_skip (o0 : Char) (oR c : Str) (p : Str) (hp : ∀ x ∈ p, x ≠ o0) (r : Str) :
    stripBlocks o0 oR c (p ++ r) = p ++ stripBlocks o0 oR c r := by
  induction p with
  | nil => simp
  | cons y ys ih =>
    have hy : y ≠ o0 := hp y (List.mem_cons_self y ys)
    rw [List.cons_append, stripBlocks_cons, isPrefixOf_cons_ne oR _ hy]
    simp only [Bool.false_eq_true, if_false]
    rw [ih (fun x hx => hp x (List.mem_cons_of_mem y hx))]
    rfl

/-- The first occurrence of a closer after a closer-free body is the closer
written there. -/
theorem findCloseFrom_exact (ch : Char) (ct : Str) (b : Str) (hb : ∀ x ∈ b, x ≠ ch) (r : Str) :
    findCloseFrom (ch :: ct) (b ++ (ch :: ct) ++ r) = some r := by
  induction b with
  | nil =>
    simp only [List.nil_append, List.cons_append]
    have hpre : (ch :: ct).isPrefixOf (ch :: (ct ++ r)) = true := by
      simp [isPrefixOf_append_self (ch :: ct) r]
    rw [findCloseFrom, hpre]
    simp [List.drop_left]
  | cons y ys ih =>
    have hy : y ≠ ch := hb y (List.mem_cons_self y ys)
    simp only [List.cons_append, List.append_assoc] at ih ⊢
    rw [findCloseFrom, isPrefixOf_cons_ne ct _ hy]
    simp only [Bool.false_eq_true, if_false]
    exact ih (fun x hx => hb x (List.mem_cons_of_mem y hx))

theorem open1R_eq : open1R = 'm' :: strOf "ath_scratchpad>" := rfl

theorem close1_eq : close1 = '<' :: strOf "/math_scratchpad>" := rfl

theorem open2R_eq : open2R = '<' :: '<' :: 'M' :: 'A' :: 'T' :: 'H' :: ':' :: [] := rfl

theorem close2_eq : close2 = '>' :: '>' :: '>' :: [] := rfl

theorem open1R_not_prefix {y : Char} (hy : y ≠ 'm') (X : Str) :
    open1R.isPrefixOf (y :: X) = false := by
  rw [open1R_eq]
  exact isPrefixOf_cons_ne _ _ hy

/-- Pass 1 removes a well-formed `<math_scratchpad>` block and continues after
it (the lazy `.*?` stops at the first closer, which a `'<'`-free body cannot
contain). -/
theorem pass1_scratch (b r : Str) (hb : ∀ x ∈ b, x ≠ '<') :
    stripBlocks '<' open1R close1 (('<' :: open1R ++ b ++ close1) ++ r)
      = stripBlocks '<' open1R close1 r := by
  have hshape : ('<' :: open1R ++ b ++ close1) ++ r = '<' :: (open1R ++ (b ++ close1 ++ r)) := by
    simp [List.cons_append, List.append_assoc]
  rw [hshape, stripBlocks_cons]
  have hpre : ('<' :: open1R).isPrefixOf ('<' :: (open1R ++ (b ++ close1 ++ r))) = true := by
    have h0 := isPrefixOf_append_self ('<' :: open1R) (b ++ close1 ++ r)
    simp only [List.cons_append, List.append_assoc] at h0 ⊢
    exact h0
  rw [hpre]
  simp only [if_true]
  have hdrop : (open1R ++ (b ++ close1 ++ r)).drop open1R.length = b ++ close1 ++ r := by
    simp [List.drop_left]
  rw [hdrop]
  have hfc : findCloseFrom close1 (b ++ close1 ++ r) = some r := by
    rw [close1_eq]
    exact findCloseFrom_exact '<' _ b hb r
  rw [hfc]

/-- Pass 1 walks through a `<<<MATH:` block without touching it: none of its
positions starts a `<math_scratchpad>` opener. -/
theorem pass1_mathB (b r : Str) (hb : ∀ x ∈ b, x ≠ '<') :
    stripBlocks '<' open1R close1 (('<' :: open2R ++ b ++ close2) ++ r)
      = ('<' :: open2R ++ b ++ close2) ++ stripBlocks '<' open1R close1 r := by
  have hshape : ∀ t : Str, ('<' :: open2R ++ b ++ close2) ++ t
      = '<' :: '<' :: '<' :: ((strOf "MATH:" ++ b ++ close2) ++ t) := by
    intro t
    rw [open2R_eq]
    simp [List.cons_append, List.append_assoc, strOf]
  rw [hshape, hshape]
  have hstep : ∀ (y : Char) (Y : Str), y ≠ 'm' →
      ('<' :: open1R).isPrefixOf ('<' :: y :: Y) = false := by
    intro y Y hy
    have h1 : ('<' :: open1R).isPrefixOf ('<' :: y :: Y)
        = ((('<' : Char) == '<') && open1R.isPrefixOf (y :: Y)) := rfl
    rw [h1, open1R_not_prefix hy]
    simp
  have hMATH : ∀ x ∈ strOf "MATH:", x ≠ '<' := by decide
  have hcl2 : ∀ x ∈ close2, x ≠ '<' := by decide
  have hmid : ∀ x ∈ strOf "MATH:" ++ b ++ close2, x ≠ '<' := by
    intro x hx
    simp only [List.append_assoc, List.mem_append] at hx
    rcases hx with hx | hx | hx
    · exact hMATH x hx
    · exact hb x hx
    · exact hcl2 x hx
  rw [stripBlocks_cons]
  rw [hstep '<' _ (by decide)]
  simp only [Bool.false_eq_true, if_false]
  rw [stripBlocks_cons]
  rw [hstep '<' _ (by decide)]
  simp only [Bool.false_eq_true, if_false]
  have hM : strOf "MATH:" ++ b ++ close2 ++ r = 'M' :: (strOf "ATH:" ++ b ++ close2 ++ r) := by
    have hMe : strOf "MATH:" = 'M' :: strOf "ATH:" := rfl
    rw [hMe]
    simp [List.cons_append]
  rw [hM, stripBlocks_cons]
  rw [hstep 'M' _ (by decide)]
  simp only [Bool.false_eq_true, if_false]
  rw [← hM]
  rw [stripBlocks_skip '<' open1R close1 _ hmid r]

/-- Pass 2 removes a well-formed `<<<MATH:` block and continues after it. -/
theorem pass2_mathB (b r : Str) (hb : ∀ x ∈ b, x ≠ '>') :
    stripBlocks '<' open2R close2 (('<' :: open2R ++ b ++ close2) ++ r)
      = stripBlocks '<' open2R close2 r := by
  have hshape : ('<' :: open2R ++ b ++ close2) ++ r = '<' :: (open2R ++ (b ++ close2 ++ r)) := by
    simp [List.cons_append, List.append_assoc]
  rw [hshape, stripBlocks_cons]
  have hpre : ('<' :: open2R).isPrefixOf ('<' :: (open2R ++ (b ++ close2 ++ r))) = true := by
    have h0 := isPrefixOf_append_self ('<' :: open2R) (b ++ close2 ++ r)
    simp only [List.cons_append, List.append_assoc] at h0 ⊢
    exact h0
  rw [hpre]
  simp only [if_true]
  have hdrop : (open2R ++ (b ++ close2 ++ r)).drop open2R.length = b ++ close2 ++ r := by
    simp [List.drop_left]
  rw [hdrop]
  have hfc : findCloseFrom close2 (b ++ close2 ++ r) = some r := by
    rw [close2_eq]
    exact findCloseFrom_exact '>' _ b hb r
  rw [hfc]

theorem renderChunks_cons (ch : Chunk) (cs : List Chunk) :
    renderChunks (ch :: cs) = renderChunk ch ++ renderChunks cs := by
  simp [renderChunks]

theorem plainText_cons (ch : Chunk) (cs : List Chunk) :
    plainText (ch :: cs) = (match ch with | Chunk.plain s => s | _ => []) ++ plainText cs := by
  simp [plainText]

theorem all_ne_of_all {c : Char} {s : Str} (h : s.all (fun x => x ≠ c) = true) :
    ∀ x ∈ s, x ≠ c := by
  intro x hx
  have := List.all_eq_true.mp h x hx
  simpa using this

/-- Keep everything but scratch blocks. -/
def notScratch (ch : Chunk) : Bool := match ch with | Chunk.scratch _ => false | _ => true

/-- Pass 1 on a well-formed chunk sequence removes exactly the
`<math_scratchpad>` blocks. -/
theorem pass1_chunks (cs : List Chunk) (h : ∀ ch ∈ cs, chunkOkB ch = true) :
    stripBlocks '<' open1R close1 (renderChunks cs)
      = renderChunks (cs.filter notScratch) := by
  induction cs with
  | nil => rfl
  | cons ch rest ih =>
    have hch := h ch (List.mem_cons_self ch rest)
    have hrest : ∀ c ∈ rest, chunkOkB c = true := fun c hc => h c (List.mem_cons_of_mem ch hc)
    cases ch with
    | plain s =>
      rw [renderChunks_cons]
      have hs : ∀ x ∈ s, x ≠ '<' := all_ne_of_all hch
      rw [show renderChunk (Chunk.plain s) = s from rfl]
      rw [stripBlocks_skip '<' open1R close1 s hs _, ih hrest]
      have hf : List.filter notScratch (Chunk.plain s :: rest)
          = Chunk.plain s :: List.filter notScratch rest := rfl
      rw [hf, renderChunks_cons]
      rfl
    | scratch b =>
      rw [renderChunks_cons]
      have hb : ∀ x ∈ b, x ≠ '<' := all_ne_of_all hch
      rw [show renderChunk (Chunk.scratch b) = '<' :: open1R ++ b ++ close1 from rfl]
      rw [pass1_scratch b _ hb, ih hrest]
      simp [notScratch, List.filter]
    | mathB b =>
      rw [renderChunks_cons]
      have hb : ∀ x ∈ b, x ≠ '<' := by
        intro x hx
        have := List.all_eq_true.mp hch x hx
        simp only [Bool.and_eq_true, decide_eq_true_eq] at this
        exact this.1
      rw [show renderChunk (Chunk.mathB b) = '<' :: open2R ++ b ++ close2 from rfl]
      rw [pass1_mathB b _ hb, ih hrest]
      have hf : List.filter notScratch (Chunk.mathB b :: rest)
          = Chunk.mathB b :: List.filter notScratch rest := rfl
      rw [hf, renderChunks_cons]
      simp [renderChunk, List.append_assoc]

/-- Pass 2 on a scratch-free well-formed chunk sequence removes exactly the
`<<<MATH:` blocks, leaving the plain text. -/
theorem pass2_chunks (cs : List Chunk) (h : ∀ ch ∈ cs, chunkOkB ch = true)
    (hns : ∀ ch ∈ cs, notScratch ch = true) :
    stripBlocks '<' open2R close2 (renderChunks cs) = plainText cs := by
  induction cs with
  | nil => rfl
  | cons ch rest ih =>
    have hch := h ch (List.mem_cons_self ch rest)
    have hrest : ∀ c ∈ rest, chunkOkB c = true := fun c hc => h c (List.mem_cons_of_mem ch hc)
    have hnsrest : ∀ c ∈ rest, notScratch c = true := fun c hc => hns c (List.mem_cons_of_mem ch hc)
    cases ch with
    | plain s =>
      rw [renderChunks_cons, plainText_cons]
      have hs : ∀ x ∈ s, x ≠ '<' := all_ne_of_all hch
      rw [show renderChunk (Chunk.plain s) = s from rfl]
      rw [stripBlocks_skip '<' open2R close2 s hs _, ih hrest hnsrest]
    | scratch b =>
      have := hns (Chunk.scratch b) (List.mem_cons_self _ rest)
      simp [notScratch] at this
    | mathB b =>
      rw [renderChunks_cons, plainText_cons]
      have hb : ∀ x ∈ b, x ≠ '>' := by
        intro x hx
        have := List.all_eq_true.mp hch x hx
        simp only [Bool.and_eq_true, decide_eq_true_eq] at this
        exact this.2
      rw [show renderChunk (Chunk.mathB b) = '<' :: open2R ++ b ++ close2 from rfl]
      rw [pass2_mathB b _ hb, ih hrest hnsrest]
      simp

theorem plainText_filter_notScratch (cs : List Chunk) :
    plainText (cs.filter notScratch) = plainText cs := by
  induction cs with
  | nil => rfl
  | cons ch rest ih =>
    cases ch with
    | plain s =>
      have hf : List.filter notScratch (Chunk.plain s :: rest)
          = Chunk.plain s :: List.filter notScratch rest := rfl
      rw [hf, plainText_cons, plainText_cons, ih]
    | scratch b =>
      have hf : List.filter notScratch (Chunk.scratch b :: rest) = List.filter notScratch rest := rfl
      rw [hf, plainText_cons, ih]
      rfl
    | mathB b =>
      have hf : List.filter notScratch (Chunk.mathB b :: rest)
          = Chunk.mathB b :: List.filter notScratch rest := rfl
      rw [hf, plainText_cons, plainText_cons, ih]

theorem filter_chunkOk (cs : List Chunk) (h : ∀ ch ∈ cs, chunkOkB ch = true) :
    ∀ ch ∈ cs.filter notScratch, chunkOkB ch = true :=
  fun ch hch => h ch (List.mem_of_mem_filter hch)

theorem filter_notScratch_sound (cs : List Chunk) :
    ∀ ch ∈ cs.filter notScratch, notScratch ch = true :=
  fun _ hch => List.of_mem_filter hch

theorem mem_of_mem_dropWhile {p : Char → Bool} {x : Char} :
    ∀ {l : Str}, x ∈ l.dropWhile p → x ∈ l := by
  intro l
  induction l with
  | nil => simp
  | cons a as ih =>
    intro h
    by_cases hp : p a
    · simp only [List.dropWhile_cons, hp, if_true] at h
      exact List.mem_cons_of_mem a (ih h)
    · simp only [List.dropWhile_cons, hp, Bool.false_eq_true, if_false] at h
      exact h

theorem mem_of_mem_pyStrip {x : Char} {l : Str} (h : x ∈ pyStrip l) : x ∈ l := by
  unfold pyStrip at h
  rw [List.mem_reverse] at h
  have h1 := mem_of_mem_dropWhile h
  rw [List.mem_reverse] at h1
  exact mem_of_mem_dropWhile h1

theorem plainText_no_lt (cs : List Chunk) (h : ∀ ch ∈ cs, chunkOkB ch = true) :
    ∀ x ∈ plainText cs, x ≠ '<' := by
  intro x hx
  unfold plainText at hx
  rw [List.mem_flatten] at hx
  obtain ⟨l, hl, hxl⟩ := hx
  rw [List.mem_map] at hl
  obtain ⟨ch, hch, rfl⟩ := hl
  cases ch with
  | plain s => exact all_ne_of_all (h _ hch) x hxl
  | scratch b => simp at hxl
  | mathB b => simp at hxl

/-- **C3, amended.** For every input made of literal text and zero or more
well-formed delimited scratch blocks (either historical delimiter style —
well-formed meaning the literal text and block bodies contain no `'<'`, and
`<<<MATH:` bodies no `'>'`), `clean_hidden_math` removes every block: the
output is exactly the non-block text, in its original order, with only the
final `str.strip()` applied to the ends; in particular the output contains no
`'<'`, hence no scratch block of either convention. -/
theorem c3_scratch_removal (cs : List Chunk) (h : ∀ ch ∈ cs, chunkOkB ch = true) :
    cleanHiddenMath (renderChunks cs) = pyStrip (plainText cs)
    ∧ (∀ x ∈ cleanHiddenMath (renderChunks cs), x ≠ '<') := by
  have hmain : cleanHiddenMath (renderChunks cs) = pyStrip (plainText cs) := by
    unfold cleanHiddenMath
    rw [pass1_chunks cs h]
    rw [pass2_chunks _ (filter_chunkOk cs h) (filter_notScratch_sound cs)]
    rw [plainText_filter_notScratch]
  refine ⟨hmain, ?_⟩
  intro x hx
  rw [hmain] at hx
  exact plainText_no_lt cs h x (mem_of_mem_pyStrip hx)

/-- Witness for C3 (amended): a concrete text with one block of each style. -/
theorem c3_scratch_removal_witness :
    cleanHiddenMath (renderChunks [Chunk.plain (strOf "a "), Chunk.scratch (strOf "1+1=2"),
        Chunk.plain (strOf "b"), Chunk.mathB (strOf " 2*2 "), Chunk.plain (strOf " c ")])
      = pyStrip (plainText [Chunk.plain (strOf "a "), Chunk.scratch (strOf "1+1=2"),
        Chunk.plain (strOf "b"), Chunk.mathB (strOf " 2*2 "), Chunk.plain (strOf " c ")])
    ∧ (∀ x ∈ cleanHiddenMath (renderChunks [Chunk.plain (strOf "a "), Chunk.scratch (strOf "1+1=2"),
        Chunk.plain (strOf "b"), Chunk.mathB (strOf " 2*2 "), Chunk.plain (strOf " c ")]), x ≠ '<') :=
  c3_scratch_removal _ (by decide)

/- ### The Post-Processor, step 2: recalculate_total_score

The section pattern is  `\d+\..+?:[^0-9\n]*?(\d+\.?\d*)[^0-9\n]*?/\s*10`
(no DOTALL: `.` and the classes exclude newlines).  It is embedded bottom-up;
each function mirrors one suffix of the pattern. -/

/-- `\s*10` after the literal `/`.  The greedy `\s*` needs no backtracking:
shrinking it would place a whitespace character where the literal `1`
is required. -/
def tailSlash (l : Str) : Option Str :=
  match l.dropWhile isSpaceC with
  | c1 :: c2 :: rest => if c1 = '1' ∧ c2 = '0' then some rest else none
  | _ => none

/-- `[^0-9\n]*?/\s*10`: the lazy class star tries the literal `/` at every
position (consuming `/` itself as a class character if the rest fails), and
fails at a digit, a newline or the end, none of which the class can consume. -/
def tailLazy : Str → Option Str
  | [] => none
  | c :: r =>
    if c = '/' then
      match tailSlash r with
      | some rest => some rest
      | none => tailLazy r
    else if c.isDigit || c = '\n' then none
    else tailLazy r

/-- The capture group `(\d+\.?\d*)` followed by the tail, entered at a digit.
The greedy parts need no backtracking here: giving back a digit from `\d+` or
`\d*` puts a digit in front of the tail's class star, which rejects digits
outright; giving back the `.` of `\.?` (possible only when `\d*` matched
nothing) makes the tail's class star consume that `.` and rescan the very same
suffix that just failed. -/
def groupAfterD1 (d1 : Str) : Str → Option (Str × Str)
  | [] => none
  | c :: r2 =>
    if c = '.' then
      match tailLazy (r2.dropWhile isDigitC) with
      | some rest => some (d1 ++ '.' :: r2.takeWhile isDigitC, rest)
      | none => none
    else
      match tailLazy (c :: r2) with
      | some rest => some (d1, rest)
      | none => none

def groupTail (l : Str) : Option (Str × Str) :=
  if (l.takeWhile isDigitC).isEmpty then none
  else groupAfterD1 (l.takeWhile isDigitC) (l.dropWhile isDigitC)

/-- `[^0-9\n]*?` before the capture group: the lazy star extends exactly until
the first digit (its continuation `\d+` demands a digit, and the class cannot
consume one), failing at a newline or the end. -/
def skipToDigit : Str → Option Str
  | [] => none
  | c :: r => if c.isDigit then some (c :: r) else if c = '\n' then none else skipToDigit r

/-- Everything after the `:` of the pattern. -/
def afterColon (l : Str) : Option (Str × Str) :=
  match skipToDigit l with
  | some l' => groupTail l'
  | none => none

/-- The scanning part of `.+?:` — at least one character has already been
consumed; try the literal `:` here, otherwise (or when the rest of the match
fails at this `:`) let the lazy dot consume the character — failing at a
newline, which `.` cannot match. -/
def colonGo : Str → Option (Str × Str)
  | [] => none
  | c :: r =>
    if c = ':' then
      match afterColon r with
      | some v => some v
      | none => colonGo r
    else if c = '\n' then none
    else colonGo r

/-- `.+?` must consume at least one (non-newline) character before the first
`:` attempt. -/
def dotPlusColon : Str → Option (Str × Str)
  | [] => none
  | c :: r3 => if c = '\n' then none else colonGo r3

/-- The part of the pattern after `\d+`: the literal `.`, then `.+?:` and the
rest. -/
def afterDigits : Str → Option (Str × Str)
  | [] => none
  | c1 :: r2 => if c1 = '.' then dotPlusColon r2 else none

/-- One attempt of the whole section pattern at the current position:
`\d+` (greedy, exact: shrinking it puts a digit where `\.` is required),
the literal `.`, then `.+?` (at least one non-newline character) up to a `:`,
then the rest.  Returns the captured score string and the suffix after the
match. -/
def matchSection (l : Str) : Option (Str × Str) :=
  if (l.takeWhile isDigitC).isEmpty then none
  else afterDigits (l.dropWhile isDigitC)

theorem length_dropWhile_le (p : Char → Bool) (l : Str) :
    (l.dropWhile p).length ≤ l.length := by
  induction l with
  | nil => simp
  | cons a as ih =>
    by_cases hp : p a
    · simp only [List.dropWhile_cons, hp, if_true]
      exact Nat.le_succ_of_le ih
    · simp [List.dropWhile_cons, hp]

theorem tailSlash_length (l r : Str) (h : tailSlash l = some r) : r.length < l.length := by
  unfold tailSlash at h
  split at h
  · rename_i c1 c2 rest heq
    split at h
    · injection h with h
      subst h
      have h2 := length_dropWhile_le isSpaceC l
      rw [heq] at h2
      simp only [List.length_cons] at h2
      omega
    · exact absurd h (by simp)
  · exact absurd h (by simp)

theorem tailLazy_length (l : Str) : ∀ r, tailLazy l = some r → r.length < l.length := by
  induction l with
  | nil => intro r h; simp [tailLazy] at h
  | cons c cs ih =>
    intro r h
    unfold tailLazy at h
    split at h
    · split at h
      · rename_i rest hts
        injection h with h
        subst h
        have := tailSlash_length cs _ hts
        simp only [List.length_cons]
        omega
      · have := ih r h
        simp only [List.length_cons]
        omega
    · split at h
      · exact absurd h (by simp)
      · have := ih r h
        simp only [List.length_cons]
        omega

theorem groupAfterD1_length (d1 l cap r : Str) (h : groupAfterD1 d1 l = some (cap, r)) :
    r.length < l.length := by
  cases l with
  | nil => simp [groupAfterD1] at h
  | cons c r2 =>
    simp only [groupAfterD1] at h
    split at h
    · cases htl : tailLazy (r2.dropWhile isDigitC) with
      | none => rw [htl] at h; exact absurd h (by simp)
      | some rest =>
        rw [htl] at h
        injection h with h
        rw [Prod.mk.injEq] at h
        obtain ⟨-, h2⟩ := h
        subst h2
        have h3 := tailLazy_length _ _ htl
        have h4 : (r2.dropWhile isDigitC).length ≤ r2.length := length_dropWhile_le _ _
        simp only [List.length_cons]
        omega
    · cases htl : tailLazy (c :: r2) with
      | none => rw [htl] at h; exact absurd h (by simp)
      | some rest =>
        rw [htl] at h
        injection h with h
        rw [Prod.mk.injEq] at h
        obtain ⟨-, h2⟩ := h
        subst h2
        exact tailLazy_length _ _ htl

theorem groupTail_length (l cap r : Str) (h : groupTail l = some (cap, r)) :
    r.length < l.length := by
  unfold groupTail at h
  split at h
  · exact absurd h (by simp)
  · have hdw : (l.dropWhile isDigitC).length ≤ l.length := length_dropWhile_le _ _
    have := groupAfterD1_length _ _ cap r h
    omega

theorem skipToDigit_length (l : Str) : ∀ r, skipToDigit l = some r → r.length ≤ l.length := by
  induction l with
  | nil => intro r h; simp [skipToDigit] at h
  | cons c cs ih =>
    intro r h
    unfold skipToDigit at h
    split at h
    · injection h with h
      subst h
      simp
    · split at h
      · exact absurd h (by simp)
      · have := ih r h
        simp only [List.length_cons]
        omega

theorem afterColon_length (l cap r : Str) (h : afterColon l = some (cap, r)) :
    r.length < l.length := by
  unfold afterColon at h
  split at h
  · rename_i l' hsd
    have h1 := skipToDigit_length l _ hsd
    have h2 := groupTail_length l' cap r h
    omega
  · exact absurd h (by simp)

theorem colonGo_length (l : Str) : ∀ cap r, colonGo l = some (cap, r) → r.length < l.length := by
  induction l with
  | nil => intro cap r h; simp [colonGo] at h
  | cons c cs ih =>
    intro cap r h
    unfold colonGo at h
    split at h
    · cases hac : afterColon cs with
      | some v =>
        rw [hac] at h
        injection h with h
        subst h
        have := afterColon_length cs cap r hac
        simp only [List.length_cons]
        omega
      | none =>
        rw [hac] at h
        have := ih cap r h
        simp only [List.length_cons]
        omega
    · split at h
      · exact absurd h (by simp)
      · have := ih cap r h
        simp only [List.length_cons]
        omega

theorem dotPlusColon_length (l cap r : Str) (h : dotPlusColon l = some (cap, r)) :
    r.length < l.length := by
  cases l with
  | nil => simp [dotPlusColon] at h
  | cons c r3 =>
    simp only [dotPlusColon] at h
    split at h
    · exact absurd h (by simp)
    · have := colonGo_length r3 cap r h
      simp only [List.length_cons]
      omega

theorem afterDigits_length (l cap r : Str) (h : afterDigits l = some (cap, r)) :
    r.length < l.length := by
  cases l with
  | nil => simp [afterDigits] at h
  | cons c1 r2 =>
    simp only [afterDigits] at h
    split at h
    · have := dotPlusColon_length r2 cap r h
      simp only [List.length_cons]
      omega
    · exact absurd h (by simp)

theorem matchSection_length (l cap r : Str) (h : matchSection l = some (cap, r)) :
    r.length < l.length := by
  unfold matchSection at h
  split at h
  · exact absurd h (by simp)
  · have hdw : (l.dropWhile isDigitC).length ≤ l.length := length_dropWhile_le _ _
    have := afterDigits_length _ cap r h
    omega

/-- `re.findall` for the section pattern: scan left to right, at each position
attempt a match; on success record the capture and resume after the match
(matches are non-overlapping and nonempty).  Fuel-based; the input length is
always sufficient (`findAllSections_cons`). -/
def findAllAux : ℕ → Str → List Str
  | 0, _ => []
  | fuel + 1, l =>
    match l with
    | [] => []
    | c :: cs =>
      match matchSection (c :: cs) with
      | some (cap, rest) => cap :: findAllAux fuel rest
      | none => findAllAux fuel cs

def findAllSections (l : Str) : List Str := findAllAux l.length l

theorem findAllAux_fuel : ∀ f₁ f₂ l, l.length ≤ f₁ → l.length ≤ f₂ →
    findAllAux f₁ l = findAllAux f₂ l := by
  intro f₁
  induction f₁ with
  | zero =>
    intro f₂ l h1 _
    have : l = [] := List.length_eq_zero.mp (Nat.le_zero.mp h1)
    subst this
    cases f₂ <;> simp [findAllAux]
  | succ f₁ ih =>
    intro f₂ l h1 h2
    cases l with
    | nil => cases f₂ <;> simp [findAllAux]
    | cons c cs =>
      cases f₂ with
      | zero => simp at h2
      | succ f₂ =>
        have hx : cs.length ≤ f₁ := by simp only [List.length_cons] at h1; omega
        have hx2 : cs.length ≤ f₂ := by simp only [List.length_cons] at h2; omega
        simp only [findAllAux]
        cases hm : matchSection (c :: cs) with
        | some v =>
          obtain ⟨cap, rest⟩ := v
          have hr := matchSection_length _ _ _ hm
          simp only [List.length_cons] at hr
          show cap :: findAllAux f₁ rest = cap :: findAllAux f₂ rest
          rw [ih f₂ rest (by omega) (by omega)]
        | none =>
          show findAllAux f₁ cs = findAllAux f₂ cs
          rw [ih f₂ cs hx hx2]

theorem findAllSections_nil : findAllSections [] = [] := rfl

/-- The one-step unfolding of `findAllSections`; all later reasoning uses this
equation. -/
theorem findAllSections_cons (c : Char) (cs : Str) :
    findAllSections (c :: cs) =
      match matchSection (c :: cs) with
      | some (cap, rest) => cap :: findAllSections rest
      | none => findAllSections cs := by
  show findAllAux (cs.length + 1) (c :: cs) = _
  simp only [findAllAux]
  cases hm : matchSection (c :: cs) with
  | some v =>
    obtain ⟨cap, rest⟩ := v
    have hr := matchSection_length _ _ _ hm
    simp only [List.length_cons] at hr
    show cap :: findAllAux cs.length rest = cap :: findAllSections rest
    rw [findAllAux_fuel cs.length rest.length rest (by omega) le_rfl]
    rfl
  | none => rfl

/- ### The header pattern
`(#\s*[🔍📝]?\s*SCORE\s*:\s*)([\d\.]+)(\s*/\s*100)` with `re.IGNORECASE`.
Each greedy piece is deterministic: every `\s*` is followed by a
non-whitespace requirement, the optional emoji cannot be mistaken for the
`s` of `score`, and `[\d\.]+` is followed by `\s*/`, neither of which the
class can consume. -/

/-- The header pattern after its leading `#`. -/
def headerBody (r1 : Str) : Option (Str × Str × Str × Str) :=
    let w1 := r1.takeWhile isSpaceC
    let r2 := r1.dropWhile isSpaceC
    let em : Str := match r2 with
      | c :: _ => if c = '🔍' ∨ c = '📝' then [c] else []
      | [] => []
    let r3 := r2.drop em.length
    let w2 := r3.takeWhile isSpaceC
    let r4 := r3.dropWhile isSpaceC
    match r4 with
    | s1 :: s2 :: s3 :: s4 :: s5 :: r5 =>
      if s1.toLower = 's' ∧ s2.toLower = 'c' ∧ s3.toLower = 'o' ∧ s4.toLower = 'r' ∧ s5.toLower = 'e' then
        let w3 := r5.takeWhile isSpaceC
        match r5.dropWhile isSpaceC with
        | ':' :: r7 =>
          let w4 := r7.takeWhile isSpaceC
          let r8 := r7.dropWhile isSpaceC
          let num := r8.takeWhile isDigitDotC
          let r9 := r8.dropWhile isDigitDotC
          if num.isEmpty then none
          else
            let w5 := r9.takeWhile isSpaceC
            match r9.dropWhile isSpaceC with
            | '/' :: r11 =>
              let w6 := r11.takeWhile isSpaceC
              match r11.dropWhile isSpaceC with
              | d1 :: d2 :: d3 :: rest =>
                if d1 = '1' ∧ d2 = '0' ∧ d3 = '0' then
                  some ('#' :: w1 ++ em ++ w2 ++ [s1, s2, s3, s4, s5] ++ w3 ++ ':' :: w4,
                    num, w5 ++ '/' :: w6 ++ ['1', '0', '0'], rest)
                else none
              | _ => none
            | _ => none
        | _ => none
      else none
    | _ => none

/-- One attempt of the header pattern at the current position.  Returns
`(group1, group2, group3, rest)` — the matched text of the three groups
(original casing preserved, as `re.sub` re-emits groups 1 and 3) and the
suffix after the match. -/
def headerAt : Str → Option (Str × Str × Str × Str)
  | [] => none
  | c0 :: r1 => if c0 = '#' then headerBody r1 else none

/-- `re.search` + the `re.sub(..., count=1)` split for the header pattern:
the text before the leftmost match, the three groups, and the text after. -/
def headerSplit : Str → Option (Str × Str × Str × Str × Str)
  | [] => none
  | c :: cs =>
    match headerAt (c :: cs) with
    | some (g1, g2, g3, rest) => some ([], g1, g2, g3, rest)
    | none =>
      match headerSplit cs with
      | some (b, g1, g2, g3, a) => some (c :: b, g1, g2, g3, a)
      | none => none

/-- Python `float(s)` on strings drawn from the capture language `\d+\.?\d*`
(which `float` always accepts), as an exact decimal. -/
def pyFloat (s : Str) : Option DecV :=
  match s.dropWhile isDigitC with
  | [] => if (s.takeWhile isDigitC).isEmpty then none else some ⟨digitsVal s, 0⟩
  | c :: frac =>
    if c = '.' ∧ ¬ (s.takeWhile isDigitC).isEmpty ∧ frac.all isDigitC then
      some ⟨digitsVal (s.takeWhile isDigitC) * 10 ^ frac.length + digitsVal frac, frac.length⟩
    else none

/-- The total formatting of `recalculate_total_score`:
`f"{int(t)}"` when `t.is_integer()`, else `f"{t:.1f}"`.  Rounding to one
decimal place (the `e ≥ 2` arm) is decimal round-half-up here; it stands for
`%.1f` on the binary double and never fires on the one-decimal-digit domain
of the theorems below. -/
def formatTotal (d : DecV) : Str :=
  let n := decNorm d
  if n.e = 0 then natDigits n.m
  else if n.e = 1 then natDigits (n.m / 10) ++ '.' :: [digitChar (n.m % 10)]
  else
    let p := 10 ^ (n.e - 1)
    let t := (n.m + p / 2) / p
    natDigits (t / 10) ++ '.' :: [digitChar (t % 10)]

/-- `recalculate_total_score`: find all section scores, and if any were found,
sum them (`try: float(s) except ValueError: continue` is the `filterMap`) and
rewrite the first header occurrence with the formatted total — or prepend a
fresh `# 📝 SCORE: <total>/100` header when the header pattern is absent.
The ten-section sanity check only prints a debug line and the surrounding
`try/except` is unreachable, so neither appears here. -/
def recalcTotalScore (text : Str) : Str :=
  let caps := findAllSections text
  if caps.isEmpty then text
  else
    let scores := caps.filterMap pyFloat
    let total := scores.foldl decAdd ⟨0, 0⟩
    let tstr := formatTotal total
    match headerSplit text with
    | some (b, g1, _, g3, a) => b ++ g1 ++ tstr ++ g3 ++ a
    | none => strOf "# 📝 SCORE: " ++ tstr ++ strOf "/100\n\n" ++ text

/-- The whole Post-Processor, as invoked back-to-back in `grade_submission`. -/
def postProcess (t : Str) : Str := recalcTotalScore (cleanHiddenMath t)

/- ### Claims C1 and C2: counterexamples -/

/-- A feedback text with exactly ten well-formed `N. NAME: S/10` lines (each
scoring 1, so their sum is 10), a `# SCORE: 0/100` header — and one extra
line `* 11. extra: 5/10 bonus` that is not a well-formed section-score line
but still matches the section regex. -/
def c1Text : Str :=
  strOf "# SCORE: 0/100\n1. A: 1/10\n2. B: 1/10\n3. C: 1/10\n4. D: 1/10\n5. E: 1/10\n6. F: 1/10\n7. G: 1/10\n8. H: 1/10\n9. I: 1/10\n10. J: 1/10\n* 11. extra: 5/10 bonus"

set_option maxRecDepth 8192 in
/-- **C1, counterexample.** On `c1Text` the ten well-formed section-score
lines sum to 10, but the code rewrites the header to 15: the regex also
matches the fragment `11. extra: 5/10` inside the extra line, so the rewritten
total is not the sum of the ten `S` values. -/
theorem c1_counterexample :
    recalcTotalScore c1Text
      = strOf "# SCORE: 15/100\n1. A: 1/10\n2. B: 1/10\n3. C: 1/10\n4. D: 1/10\n5. E: 1/10\n6. F: 1/10\n7. G: 1/10\n8. H: 1/10\n9. I: 1/10\n10. J: 1/10\n* 11. extra: 5/10 bonus"
    ∧ recalcTotalScore c1Text
      ≠ strOf "# SCORE: 10/100\n1. A: 1/10\n2. B: 1/10\n3. C: 1/10\n4. D: 1/10\n5. E: 1/10\n6. F: 1/10\n7. G: 1/10\n8. H: 1/10\n9. I: 1/10\n10. J: 1/10\n* 11. extra: 5/10 bonus" := by
  constructor
  · decide
  · decide

/-- A text on which the Post-Processor is not idempotent: the header region
itself contains a fragment (`1.x: # SCORE: 99/100`) matched by the section
regex, so rewriting the header changes the captured score. -/
def c2Text : Str := strOf "1.x: # SCORE: 99/100\n2. B: 1/10"

set_option maxRecDepth 8192 in
/-- **C2, counterexample.** Applying the Post-Processor (scratch-work removal
followed by score recalculation) twice to `c2Text` does not give the same
result as applying it once: the first pass rewrites the header to 100, the
second then sums 100 + 1 and rewrites it to 101. -/
theorem c2_counterexample :
    postProcess (postProcess c2Text) ≠ postProcess c2Text
    ∧ postProcess c2Text = strOf "1.x: # SCORE: 100/100\n2. B: 1/10"
    ∧ postProcess (postProcess c2Text) = strOf "1.x: # SCORE: 101/100\n2. B: 1/10" := by
  refine ⟨?_, ?_, ?_⟩
  · decide
  · decide
  · decide

/- ### Where the section pattern cannot match

A colon-free stretch of a single line (followed by a newline or the end of the
text) admits no match: after any `\d+\.`, the lazy `.+?:` never finds its `:`
before the newline stops it. -/

theorem colonGo_none (F rest : Str) (hF : ∀ c ∈ F, c ≠ ':' ∧ c ≠ '\n')
    (hrest : rest = [] ∨ ∃ r', rest = '\n' :: r') :
    colonGo (F ++ rest) = none := by
  induction F with
  | nil =>
    rcases hrest with rfl | ⟨r', rfl⟩
    · rfl
    · simp [colonGo]
  | cons c F' ih =>
    have hc := hF c (List.mem_cons_self c F')
    rw [List.cons_append]
    unfold colonGo
    rw [if_neg hc.1, if_neg hc.2]
    exact ih (fun x hx => hF x (List.mem_cons_of_mem c hx))

theorem dropWhile_append_of_fix (p : Char → Bool) (l r : Str) (hr : r.dropWhile p = r) :
    (l ++ r).dropWhile p = l.dropWhile p ++ r := by
  induction l with
  | nil => simpa using hr
  | cons c l' ih =>
    by_cases hp : p c
    · simp [List.dropWhile_cons, hp, ih]
    · simp [List.dropWhile_cons, hp]

theorem afterDigits_none (F rest : Str) (hF : ∀ c ∈ F, c ≠ ':' ∧ c ≠ '\n')
    (hrest : rest = [] ∨ ∃ r', rest = '\n' :: r') :
    afterDigits (F ++ rest) = none := by
  cases F with
  | nil =>
    rcases hrest with rfl | ⟨r', rfl⟩
    · rfl
    · simp [afterDigits]
  | cons c F' =>
    rw [List.cons_append]
    simp only [afterDigits]
    by_cases hdot : c = '.'
    · rw [if_pos hdot]
      cases F' with
      | nil =>
        rcases hrest with rfl | ⟨r', rfl⟩
        · rfl
        · simp [dotPlusColon]
      | cons c2 F'' =>
        have hc2 := hF c2 (by simp)
        rw [List.cons_append]
        simp only [dotPlusColon]
        rw [if_neg hc2.2]
        exact colonGo_none F'' rest (fun x hx => hF x (by simp [hx])) hrest
    · rw [if_neg hdot]

theorem matchSection_none (F rest : Str) (hF : ∀ c ∈ F, c ≠ ':' ∧ c ≠ '\n')
    (hrest : rest = [] ∨ ∃ r', rest = '\n' :: r') :
    matchSection (F ++ rest) = none := by
  unfold matchSection
  by_cases he : ((F ++ rest).takeWhile isDigitC).isEmpty
  · rw [if_pos he]
  · rw [if_neg he]
    have hfix : rest.dropWhile isDigitC = rest := by
      rcases hrest with rfl | ⟨r', rfl⟩
      · rfl
      · simp [List.dropWhile_cons, show isDigitC '\n' = false from by decide]
    rw [dropWhile_append_of_fix _ _ _ hfix]
    exact afterDigits_none (F.dropWhile isDigitC) rest
      (fun x hx => hF x (mem_of_mem_dropWhile hx)) hrest

theorem findAll_newline (r : Str) : findAllSections ('\n' :: r) = findAllSections r := by
  rw [findAllSections_cons]
  have hm : matchSection ('\n' :: r) = none := by
    unfold matchSection
    rw [if_pos]
    simp [List.takeWhile_cons, show isDigitC '\n' = false from by decide]
  rw [hm]

theorem findAll_skip (F rest : Str) (hF : ∀ c ∈ F, c ≠ ':' ∧ c ≠ '\n')
    (hrest : rest = [] ∨ ∃ r', rest = '\n' :: r') :
    findAllSections (F ++ rest) = findAllSections rest := by
  induction F with
  | nil => simp
  | cons c F' ih =>
    rw [List.cons_append, findAllSections_cons]
    have hm : matchSection (c :: (F' ++ rest)) = none := by
      have h0 := matchSection_none (c :: F') rest hF hrest
      rw [List.cons_append] at h0
      exact h0
    rw [hm]
    exact ih (fun x hx => hF x (List.mem_cons_of_mem c hx))

theorem findAll_skip_nodigit (P rest : Str) (hP : ∀ c ∈ P, isDigitC c = false) :
    findAllSections (P ++ rest) = findAllSections rest := by
  induction P with
  | nil => simp
  | cons c P' ih =>
    rw [List.cons_append, findAllSections_cons]
    have hm : matchSection (c :: (P' ++ rest)) = none := by
      unfold matchSection
      rw [if_pos]
      simp [List.takeWhile_cons, hP c (List.mem_cons_self c P')]
    rw [hm]
    exact ih (fun x hx => hP x (List.mem_cons_of_mem c hx))

/- ### Where the section pattern does match: rendered section lines -/

theorem takeWhile_all_append (p : Char → Bool) (D : Str) (c' : Char) (r : Str)
    (hD : ∀ x ∈ D, p x = true) (hc : p c' = false) :
    (D ++ c' :: r).takeWhile p = D := by
  induction D with
  | nil => simp [List.takeWhile_cons, hc]
  | cons d D' ih =>
    rw [List.cons_append]
    simp only [List.takeWhile_cons, hD d (List.mem_cons_self d D'), if_true]
    rw [ih (fun x hx => hD x (List.mem_cons_of_mem d hx))]

theorem dropWhile_all_append (p : Char → Bool) (D : Str) (c' : Char) (r : Str)
    (hD : ∀ x ∈ D, p x = true) (hc : p c' = false) :
    (D ++ c' :: r).dropWhile p = c' :: r := by
  induction D with
  | nil => simp [List.dropWhile_cons, hc]
  | cons d D' ih =>
    rw [List.cons_append]
    simp only [List.dropWhile_cons, hD d (List.mem_cons_self d D'), if_true]
    exact ih (fun x hx => hD x (List.mem_cons_of_mem d hx))

/-- The decimal rendering of a score of `s` tenths, as the grading model
prints it: an integer when whole, else one decimal digit (`9`, `9.5`). -/
def tenthsStr (s : ℕ) : Str :=
  if s % 10 = 0 then natDigits (s / 10) else natDigits (s / 10) ++ '.' :: [digitChar (s % 10)]

theorem tenthsStr_head (s : ℕ) : ∃ d l', tenthsStr s = d :: l' ∧ isDigitC d = true := by
  unfold tenthsStr
  cases hD : natDigits (s / 10) with
  | nil => exact absurd hD (natDigits_ne_nil _)
  | cons d l' =>
    have hd : isDigitC d = true := by
      have := natDigits_digits (s / 10) d (by rw [hD]; exact List.mem_cons_self d l')
      simpa [isDigitC] using this
    by_cases h10 : s % 10 = 0
    · exact ⟨d, l', by simp [h10], hd⟩
    · exact ⟨d, l' ++ '.' :: [digitChar (s % 10)], by simp [h10], hd⟩

theorem tailLazy_slash (r : Str) : tailLazy ('/' :: '1' :: '0' :: r) = some r := by
  unfold tailLazy
  rw [if_pos rfl]
  have hts : tailSlash ('1' :: '0' :: r) = some r := by
    unfold tailSlash
    have : ('1' :: '0' :: r).dropWhile isSpaceC = '1' :: '0' :: r := by
      simp [List.dropWhile_cons, show isSpaceC '1' = false from by decide]
    rw [this]
    simp
  rw [hts]

/-- The capture group on a rendered score: it captures exactly the score
string and stops at `/10`. -/
theorem groupTail_tenths (s : ℕ) (r : Str) :
    groupTail (tenthsStr s ++ '/' :: '1' :: '0' :: r) = some (tenthsStr s, r) := by
  have hDdig : ∀ x ∈ natDigits (s / 10), isDigitC x = true := by
    intro x hx
    simpa [isDigitC] using natDigits_digits (s / 10) x hx
  by_cases h10 : s % 10 = 0
  · have hts : tenthsStr s = natDigits (s / 10) := by simp [tenthsStr, h10]
    rw [hts]
    unfold groupTail
    rw [takeWhile_all_append isDigitC _ '/' _ hDdig (by decide),
      dropWhile_all_append isDigitC _ '/' _ hDdig (by decide)]
    rw [if_neg (by simpa using natDigits_ne_nil (s / 10))]
    simp only [groupAfterD1]
    rw [if_neg (by decide : ¬ ('/' : Char) = '.')]
    rw [tailLazy_slash]
  · have hts : tenthsStr s = natDigits (s / 10) ++ '.' :: [digitChar (s % 10)] := by
      simp [tenthsStr, h10]
    rw [hts]
    have hsh : (natDigits (s / 10) ++ '.' :: [digitChar (s % 10)]) ++ '/' :: '1' :: '0' :: r
        = natDigits (s / 10) ++ '.' :: (digitChar (s % 10) :: '/' :: '1' :: '0' :: r) := by
      simp
    rw [hsh]
    unfold groupTail
    rw [takeWhile_all_append isDigitC _ '.' _ hDdig (by decide),
      dropWhile_all_append isDigitC _ '.' _ hDdig (by decide)]
    rw [if_neg (by simpa using natDigits_ne_nil (s / 10))]
    simp only [groupAfterD1]
    simp only [if_true]
    have hdig : isDigitC (digitChar (s % 10)) = true := by
      simpa [isDigitC] using digitChar_isDigit (Nat.mod_lt s (by norm_num))
    have htk : (digitChar (s % 10) :: '/' :: '1' :: '0' :: r).takeWhile isDigitC
        = [digitChar (s % 10)] := by
      simp [List.takeWhile_cons, hdig, show isDigitC '/' = false from by decide]
    have hdr : (digitChar (s % 10) :: '/' :: '1' :: '0' :: r).dropWhile isDigitC
        = '/' :: '1' :: '0' :: r := by
      simp [List.dropWhile_cons, hdig, show isDigitC '/' = false from by decide]
    rw [htk, hdr, tailLazy_slash]

theorem skipToDigit_space (l : Str) (hd : ∃ d l', l = d :: l' ∧ isDigitC d = true) :
    skipToDigit (' ' :: l) = some l := by
  obtain ⟨d, l', rfl, hdig⟩ := hd
  unfold skipToDigit
  rw [if_neg (by simp [show (' ' : Char).isDigit = false from by decide])]
  rw [if_neg (by decide : ¬ (' ' : Char) = '\n')]
  unfold skipToDigit
  rw [if_pos (by simpa [isDigitC] using hdig)]

theorem colonGo_name (name : Str) (hname : ∀ c ∈ name, c ≠ ':' ∧ c ≠ '\n')
    (rest : Str) (v : Str × Str) (hc : afterColon rest = some v) :
    colonGo (name ++ ':' :: rest) = some v := by
  induction name with
  | nil =>
    rw [List.nil_append]
    simp only [colonGo]
    first
    | rw [if_pos rfl, hc]
    | simp only [if_true]
      rw [hc]
  | cons c name' ih =>
    have hcc := hname c (List.mem_cons_self c name')
    rw [List.cons_append]
    unfold colonGo
    rw [if_neg hcc.1, if_neg hcc.2]
    exact ih (fun x hx => hname x (List.mem_cons_of_mem c hx))

/-- A well-formed section-score line of the claimed shape `N. NAME: S/10`
(`sc` is the score in tenths). -/
structure SLine where
  num : ℕ
  name : Str
  sc : ℕ

/-- The rendered line `N. NAME: S/10`. -/
def renderS (L : SLine) : Str :=
  natDigits L.num ++ '.' :: ' ' :: (L.name ++ ':' :: ' ' :: (tenthsStr L.sc ++ '/' :: '1' :: '0' :: []))

/-- The condition making a name (or a filler line) inert for the section
pattern: no colon, no newline. -/
def lineOkB (f : Str) : Bool := f.all (fun c => c ≠ ':' && c ≠ '\n')

theorem lineOk_spec {f : Str} (h : lineOkB f = true) : ∀ c ∈ f, c ≠ ':' ∧ c ≠ '\n' := by
  intro c hc
  have := List.all_eq_true.mp h c hc
  simp only [Bool.and_eq_true, decide_eq_true_eq] at this
  exact this

/-- The section pattern matches a rendered line at its start, capturing
exactly the score string and consuming through the final `/10`. -/
theorem matchSection_renderS (L : SLine) (hname : lineOkB L.name = true) (r : Str) :
    matchSection (renderS L ++ r) = some (tenthsStr L.sc, r) := by
  have hDdig : ∀ x ∈ natDigits L.num, isDigitC x = true := by
    intro x hx
    simpa [isDigitC] using natDigits_digits L.num x hx
  have hsh : renderS L ++ r
      = natDigits L.num ++ '.' :: (' ' :: (L.name ++ ':' :: (' ' :: (tenthsStr L.sc ++ '/' :: '1' :: '0' :: r)))) := by
    simp [renderS, List.append_assoc]
  rw [hsh]
  unfold matchSection
  rw [takeWhile_all_append isDigitC _ '.' _ hDdig (by decide),
    dropWhile_all_append isDigitC _ '.' _ hDdig (by decide)]
  rw [if_neg (by simpa using natDigits_ne_nil L.num)]
  simp only [afterDigits, if_true]
  simp only [dotPlusColon]
  rw [if_neg (by decide : ¬ (' ' : Char) = '\n')]
  apply colonGo_name L.name (lineOk_spec hname)
  unfold afterColon
  have hsd : skipToDigit (' ' :: (tenthsStr L.sc ++ '/' :: '1' :: '0' :: r))
      = some (tenthsStr L.sc ++ '/' :: '1' :: '0' :: r) := by
    apply skipToDigit_space
    obtain ⟨d, l', heq, hd⟩ := tenthsStr_head L.sc
    exact ⟨d, l' ++ '/' :: '1' :: '0' :: r, by rw [heq]; simp, hd⟩
  rw [hsd]
  exact groupTail_tenths L.sc r

theorem findAll_renderS (L : SLine) (hname : lineOkB L.name = true) (r : Str) :
    findAllSections (renderS L ++ r) = tenthsStr L.sc :: findAllSections r := by
  cases hD : natDigits L.num with
  | nil => exact absurd hD (natDigits_ne_nil _)
  | cons d D' =>
    have hsh : renderS L ++ r = d :: (D' ++ '.' :: ' ' :: (L.name ++ ':' :: ' ' :: (tenthsStr L.sc ++ '/' :: '1' :: '0' :: [])) ++ r) := by
      simp [renderS, hD, List.cons_append, List.append_assoc]
    have hm := matchSection_renderS L hname r
    rw [hsh] at hm ⊢
    rw [findAllSections_cons]
    have hsh2 : (d :: (D' ++ '.' :: ' ' :: (L.name ++ ':' :: ' ' :: (tenthsStr L.sc ++ '/' :: '1' :: '0' :: [])) ++ r)) = d :: (D' ++ '.' :: ' ' :: (L.name ++ ':' :: ' ' :: (tenthsStr L.sc ++ '/' :: '1' :: '0' :: [])) ++ r) := rfl
    rw [hm]

/- ### Structured feedback documents -/

/-- One line of a structured feedback document: a section-score line or a
filler line. -/
inductive Item where
  | sec (L : SLine)
  | fill (f : Str)

def renderItem : Item → Str
  | .sec L => renderS L
  | .fill f => f

/-- The lines of a document, each preceded by a newline (they follow the
header line or the line before). -/
def renderLines (its : List Item) : Str := (its.map (fun i => '\n' :: renderItem i)).flatten

/-- Inertness of an item for the section pattern: names and filler lines
contain no colon and no newline. -/
def itemOkB : Item → Bool
  | .sec L => lineOkB L.name
  | .fill f => lineOkB f

/-- The scores (in tenths) of the section lines, in order. -/
def secNums (its : List Item) : List ℕ :=
  its.filterMap (fun i => match i with | Item.sec L => some L.sc | Item.fill _ => none)

theorem renderLines_nil : renderLines [] = [] := rfl

theorem renderLines_cons (i : Item) (its : List Item) :
    renderLines (i :: its) = '\n' :: (renderItem i ++ renderLines its) := by
  simp [renderLines]

theorem renderLines_shape (its : List Item) :
    renderLines its = [] ∨ ∃ r', renderLines its = '\n' :: r' := by
  cases its with
  | nil => exact Or.inl rfl
  | cons i its' => exact Or.inr ⟨renderItem i ++ renderLines its', renderLines_cons i its'⟩

theorem secNums_cons_sec (L : SLine) (its : List Item) :
    secNums (Item.sec L :: its) = L.sc :: secNums its := rfl

theorem secNums_cons_fill (f : Str) (its : List Item) :
    secNums (Item.fill f :: its) = secNums its := rfl

/-- `re.findall` over the rendered lines finds exactly the section scores. -/
theorem findAll_renderLines (its : List Item) (hok : ∀ i ∈ its, itemOkB i = true) :
    findAllSections (renderLines its) = (secNums its).map tenthsStr := by
  induction its with
  | nil => rfl
  | cons i its' ih =>
    have hi := hok i (List.mem_cons_self i its')
    have hits' : ∀ j ∈ its', itemOkB j = true := fun j hj => hok j (List.mem_cons_of_mem i hj)
    rw [renderLines_cons, findAll_newline]
    cases i with
    | sec L =>
      rw [show renderItem (Item.sec L) = renderS L from rfl]
      rw [findAll_renderS L hi, ih hits', secNums_cons_sec]
      rfl
    | fill f =>
      rw [show renderItem (Item.fill f) = f from rfl]
      rw [findAll_skip f (renderLines its') (lineOk_spec hi) (renderLines_shape its')]
      rw [ih hits', secNums_cons_fill]

/-- The document header line `# 📝 SCORE: T/100`. -/
def headerLine (T : Str) : Str := strOf "# 📝 SCORE: " ++ T ++ '/' :: '1' :: '0' :: '0' :: []

/-- A full structured document: header line, then the lines. -/
def renderDoc (T : Str) (its : List Item) : Str := headerLine T ++ renderLines its

/-- A legal header total: nonempty, all characters in the class `[\d\.]`. -/
def numOkB (T : Str) : Bool := !T.isEmpty && T.all isDigitDotC

theorem numOk_spec {T : Str} (h : numOkB T = true) :
    T ≠ [] ∧ ∀ c ∈ T, isDigitDotC c = true := by
  unfold numOkB at h
  simp only [Bool.and_eq_true, Bool.not_eq_true'] at h
  constructor
  · intro hT
    rw [hT] at h
    simp at h
  · exact List.all_eq_true.mp h.2

theorem isDigit_ne {c x : Char} (h : c.isDigit = true) (hx : x.isDigit = false) : c ≠ x := by
  intro heq
  subst heq
  rw [h] at hx
  exact absurd hx (by decide)

theorem digit_not_space {c : Char} (h : c.isDigit = true) : isSpaceC c = false := by
  by_contra hsp
  rw [Bool.not_eq_false] at hsp
  unfold isSpaceC at hsp
  simp only [Bool.or_eq_true, beq_iff_eq] at hsp
  rcases hsp with ((((rfl | rfl) | rfl) | rfl) | rfl) | rfl <;> exact absurd h (by decide)

theorem digitDot_inert {c : Char} (h : isDigitDotC c = true) : c ≠ ':' ∧ c ≠ '\n' := by
  unfold isDigitDotC at h
  simp only [Bool.or_eq_true, beq_iff_eq] at h
  rcases h with h | rfl
  · exact ⟨isDigit_ne h (by decide), isDigit_ne h (by decide)⟩
  · exact ⟨by decide, by decide⟩

theorem digitDot_not_space {c : Char} (h : isDigitDotC c = true) : isSpaceC c = false := by
  unfold isDigitDotC at h
  simp only [Bool.or_eq_true, beq_iff_eq] at h
  rcases h with h | rfl
  · exact digit_not_space h
  · decide

/-- `re.findall` over a full structured document (the header line contributes
no match: its prefix has no digits, and the stretch `T/100` is colon-free on
its line). -/
theorem findAll_renderDoc (T : Str) (its : List Item) (hT : numOkB T = true)
    (hok : ∀ i ∈ its, itemOkB i = true) :
    findAllSections (renderDoc T its) = (secNums its).map tenthsStr := by
  obtain ⟨hTne, hTc⟩ := numOk_spec hT
  have hsh : renderDoc T its
      = strOf "# 📝 SCORE: " ++ ((T ++ '/' :: '1' :: '0' :: '0' :: []) ++ renderLines its) := by
    simp [renderDoc, headerLine, List.append_assoc]
  rw [hsh]
  rw [findAll_skip_nodigit _ _ (by decide)]
  rw [findAll_skip (T ++ '/' :: '1' :: '0' :: '0' :: []) (renderLines its) ?hF (renderLines_shape its)]
  · exact findAll_renderLines its hok
  case hF =>
    intro c hc
    rw [List.mem_append] at hc
    rcases hc with hc | hc
    · exact digitDot_inert (hTc c hc)
    · simp only [List.mem_cons, List.not_mem_nil, or_false] at hc
      rcases hc with rfl | rfl | rfl | rfl <;> exact ⟨by decide, by decide⟩

/-- The header pattern matches the rendered header line at its very start:
it captures `"# 📝 SCORE: "` (group 1), the old total (group 2) and `"/100"`
(group 3), leaving the rest of the document. -/
theorem headerAt_std (T X : Str) (hTne : T ≠ []) (hTc : ∀ c ∈ T, isDigitDotC c = true) :
    headerAt (headerLine T ++ X)
      = some (strOf "# 📝 SCORE: ", T, '/' :: '1' :: '0' :: '0' :: [], X) := by
  obtain ⟨t, T', rfl⟩ : ∃ t T', T = t :: T' := by
    cases T with
    | nil => exact absurd rfl hTne
    | cons t T' => exact ⟨t, T', rfl⟩
  have hts : isSpaceC t = false := digitDot_not_space (hTc t (by simp))
  have hK : strOf "# 📝 SCORE: "
      = '#' :: ' ' :: '📝' :: ' ' :: 'S' :: 'C' :: 'O' :: 'R' :: 'E' :: ':' :: ' ' :: [] := by
    decide
  have hsh : headerLine (t :: T') ++ X
      = '#' :: (' ' :: '📝' :: ' ' :: 'S' :: 'C' :: 'O' :: 'R' :: 'E' :: ':' :: ' '
          :: ((t :: T') ++ '/' :: '1' :: '0' :: '0' :: X)) := by
    rw [headerLine, hK]
    simp [List.cons_append, List.append_assoc]
  rw [hsh]
  simp only [headerAt, if_true]
  have hnum : ((t :: T') ++ '/' :: '1' :: '0' :: '0' :: X).takeWhile isDigitDotC = t :: T' :=
    takeWhile_all_append isDigitDotC _ '/' _ hTc (by decide)
  have hnum2 : ((t :: T') ++ '/' :: '1' :: '0' :: '0' :: X).dropWhile isDigitDotC
      = '/' :: '1' :: '0' :: '0' :: X :=
    dropWhile_all_append isDigitDotC _ '/' _ hTc (by decide)
  have hw4 : ((t :: T') ++ '/' :: '1' :: '0' :: '0' :: X).takeWhile isSpaceC = [] := by
    simp [List.takeWhile_cons, hts]
  have hw4' : ((t :: T') ++ '/' :: '1' :: '0' :: '0' :: X).dropWhile isSpaceC
      = (t :: T') ++ '/' :: '1' :: '0' :: '0' :: X := by
    simp [List.dropWhile_cons, hts]
  have htd : isDigitDotC t = true := hTc t (by simp)
  have hT'c : ∀ c ∈ T', isDigitDotC c = true := fun c hc => hTc c (List.mem_cons_of_mem t hc)
  have hnum' : (T' ++ '/' :: '1' :: '0' :: '0' :: X).takeWhile isDigitDotC = T' :=
    takeWhile_all_append isDigitDotC _ '/' _ hT'c (by decide)
  have hnum2' : (T' ++ '/' :: '1' :: '0' :: '0' :: X).dropWhile isDigitDotC
      = '/' :: '1' :: '0' :: '0' :: X :=
    dropWhile_all_append isDigitDotC _ '/' _ hT'c (by decide)
  simp only [headerBody]
  simp [List.takeWhile_cons, List.dropWhile_cons, hts, htd, hw4, hw4', hnum, hnum2,
    hnum', hnum2', hK, List.drop,
    show isSpaceC ' ' = true from rfl, show isSpaceC '📝' = false from rfl,
    show isSpaceC 'S' = false from rfl, show isSpaceC ':' = false from rfl,
    show isSpaceC '/' = false from rfl, show isSpaceC '1' = false from rfl]

theorem headerSplit_renderDoc (T : Str) (its : List Item) (hTne : T ≠ [])
    (hTc : ∀ c ∈ T, isDigitDotC c = true) :
    headerSplit (renderDoc T its)
      = some ([], strOf "# 📝 SCORE: ", T, '/' :: '1' :: '0' :: '0' :: [], renderLines its) := by
  have hcons : renderDoc T its
      = '#' :: (((strOf " 📝 SCORE: " ++ T) ++ '/' :: '1' :: '0' :: '0' :: []) ++ renderLines its) := rfl
  have hha := headerAt_std T (renderLines its) hTne hTc
  rw [show headerLine T ++ renderLines its = renderDoc T its from rfl] at hha
  rw [hcons] at hha ⊢
  simp only [headerSplit, hha]

/- ### Summation of the parsed scores -/

theorem pyFloat_tenths (s : ℕ) :
    pyFloat (tenthsStr s) = some (if s % 10 = 0 then (⟨s / 10, 0⟩ : DecV) else ⟨s, 1⟩) := by
  have hDdig : ∀ x ∈ natDigits (s / 10), isDigitC x = true := by
    intro x hx
    simpa [isDigitC] using natDigits_digits (s / 10) x hx
  have hne : (natDigits (s / 10)).isEmpty = false := by
    simpa using natDigits_ne_nil (s / 10)
  by_cases h10 : s % 10 = 0
  · have hts : tenthsStr s = natDigits (s / 10) := by simp [tenthsStr, h10]
    have hdw : (natDigits (s / 10)).dropWhile isDigitC = [] := by
      rw [List.dropWhile_eq_nil_iff]
      intro x hx
      exact hDdig x hx
    have htw : (natDigits (s / 10)).takeWhile isDigitC = natDigits (s / 10) := by
      rw [List.takeWhile_eq_self_iff]
      intro x hx
      exact hDdig x hx
    rw [hts, if_pos h10]
    simp [pyFloat, hdw, htw, hne, digitsVal_natDigits]
  · have hts : tenthsStr s = natDigits (s / 10) ++ '.' :: [digitChar (s % 10)] := by
      simp [tenthsStr, h10]
    rw [hts, if_neg h10]
    have hdig : isDigitC (digitChar (s % 10)) = true := by
      simpa [isDigitC] using digitChar_isDigit (Nat.mod_lt s (by norm_num))
    have hsingle : digitsVal [digitChar (s % 10)] = s % 10 := by
      simp only [digitsVal, List.foldl, digitChar_toNat (show s % 10 < 10 by omega)]
      omega
    simp [pyFloat,
      dropWhile_all_append isDigitC _ '.' _ hDdig (by decide),
      takeWhile_all_append isDigitC _ '.' _ hDdig (by decide),
      hne, hdig, digitsVal_natDigits, hsingle]
    omega

/-- The value of a one-decimal number, in tenths. -/
def tvTenths (d : DecV) : ℕ := d.m * 10 ^ (1 - d.e)

theorem decAdd_tenths (a b : DecV) (ha : a.e ≤ 1) (hb : b.e ≤ 1) :
    (decAdd a b).e ≤ 1 ∧ tvTenths (decAdd a b) = tvTenths a + tvTenths b := by
  obtain ⟨am, ae⟩ := a
  obtain ⟨bm, be⟩ := b
  simp only at ha hb
  interval_cases ae <;> interval_cases be <;>
    · simp [decAdd, tvTenths]
      try ring

theorem foldl_decAdd_tenths (ds : List DecV) (hds : ∀ d ∈ ds, d.e ≤ 1) :
    ∀ acc : DecV, acc.e ≤ 1 →
      (ds.foldl decAdd acc).e ≤ 1
      ∧ tvTenths (ds.foldl decAdd acc) = tvTenths acc + (ds.map tvTenths).sum := by
  induction ds with
  | nil => intro acc hacc; simp [hacc]
  | cons d ds' ih =>
    intro acc hacc
    have hd := hds d (List.mem_cons_self d ds')
    have hds' : ∀ x ∈ ds', x.e ≤ 1 := fun x hx => hds x (List.mem_cons_of_mem d hx)
    have hstep := decAdd_tenths acc d hacc hd
    have hrec := ih hds' (decAdd acc d) hstep.1
    rw [List.foldl_cons]
    refine ⟨hrec.1, ?_⟩
    rw [hrec.2, hstep.2, List.map_cons, List.sum_cons]
    omega

/-- The formatted total, given the total in tenths: an integer when whole,
else one decimal digit — what `recalculate_total_score` prints. -/
def fmtTenths (T : ℕ) : Str :=
  if T % 10 = 0 then natDigits (T / 10) else natDigits (T / 10) ++ '.' :: [digitChar (T % 10)]

theorem formatTotal_tenths (d : DecV) (he : d.e ≤ 1) : formatTotal d = fmtTenths (tvTenths d) := by
  obtain ⟨m, e⟩ := d
  simp only at he
  interval_cases e
  · have h1 : formatTotal ⟨m, 0⟩ = natDigits m := rfl
    have h2 : tvTenths ⟨m, 0⟩ = m * 10 := by
      show m * 10 ^ (1 - 0) = m * 10
      norm_num
    rw [h1, h2]
    unfold fmtTenths
    rw [if_pos (Nat.mul_mod_left m 10)]
    congr 1
    omega
  · have h2 : tvTenths ⟨m, 1⟩ = m := by
      show m * 10 ^ (1 - 1) = m
      norm_num
    rw [h2]
    by_cases h10 : m % 10 = 0
    · have h1 : formatTotal ⟨m, 1⟩ = natDigits (m / 10) := by
        simp [formatTotal, decNorm, decNormAux, h10]
      rw [h1]
      unfold fmtTenths
      rw [if_pos h10]
    · have h1 : formatTotal ⟨m, 1⟩ = natDigits (m / 10) ++ '.' :: [digitChar (m % 10)] := by
        simp [formatTotal, decNorm, decNormAux, h10]
      rw [h1]
      unfold fmtTenths
      rw [if_neg h10]

/-- Formatted totals are legal header totals (nonempty, digits and dots). -/
theorem fmtTenths_ok (T : ℕ) : numOkB (fmtTenths T) = true := by
  unfold numOkB
  rw [Bool.and_eq_true]
  constructor
  · unfold fmtTenths
    by_cases h10 : T % 10 = 0
    · rw [if_pos h10]
      simpa using natDigits_ne_nil (T / 10)
    · rw [if_neg h10]
      simp
  · rw [List.all_eq_true]
    intro c hc
    unfold fmtTenths at hc
    by_cases h10 : T % 10 = 0
    · rw [if_pos h10] at hc
      simp [isDigitDotC, natDigits_digits _ c hc]
    · rw [if_neg h10] at hc
      rw [List.mem_append] at hc
      rcases hc with hc | hc
      · simp [isDigitDotC, natDigits_digits _ c hc]
      · simp only [List.mem_cons, List.not_mem_nil, or_false] at hc
        rcases hc with rfl | rfl
        · simp [isDigitDotC]
        · simp [isDigitDotC, digitChar_isDigit (Nat.mod_lt T (by norm_num))]

theorem filterMap_pyFloat_tenths (ns : List ℕ) :
    (ns.map tenthsStr).filterMap pyFloat
      = ns.map (fun s => if s % 10 = 0 then (⟨s / 10, 0⟩ : DecV) else ⟨s, 1⟩) := by
  induction ns with
  | nil => rfl
  | cons n ns' ih => simp [List.filterMap_cons, pyFloat_tenths, ih]

theorem tvTenths_ofTenths (s : ℕ) :
    tvTenths (if s % 10 = 0 then (⟨s / 10, 0⟩ : DecV) else ⟨s, 1⟩) = s := by
  by_cases h : s % 10 = 0
  · rw [if_pos h]
    show s / 10 * 10 ^ (1 - 0) = s
    norm_num
    omega
  · rw [if_neg h]
    show s * 10 ^ (1 - 1) = s
    norm_num

/-- The workhorse for the structured-document claims: on a rendered document
with a legal header total and inert lines, at least one of which is a section
line, `recalculate_total_score` rewrites the header total to the formatted sum
of the section scores and leaves everything else in place. -/
theorem recalc_renderDoc (T : Str) (its : List Item) (hT : numOkB T = true)
    (hok : ∀ i ∈ its, itemOkB i = true) (hne : secNums its ≠ []) :
    recalcTotalScore (renderDoc T its) = renderDoc (fmtTenths (secNums its).sum) its := by
  have hfa := findAll_renderDoc T its hT hok
  obtain ⟨hTne, hTc⟩ := numOk_spec hT
  have hhs := headerSplit_renderDoc T its hTne hTc
  have hmapne : ((secNums its).map tenthsStr).isEmpty = false := by
    cases h : secNums its with
    | nil => exact absurd h hne
    | cons a l => simp
  have htot :
      tvTenths ((((secNums its).map tenthsStr).filterMap pyFloat).foldl decAdd ⟨0, 0⟩)
        = (secNums its).sum := by
    rw [filterMap_pyFloat_tenths]
    have hds : ∀ d ∈ (secNums its).map
        (fun s => if s % 10 = 0 then (⟨s / 10, 0⟩ : DecV) else ⟨s, 1⟩), d.e ≤ 1 := by
      intro d hd
      rw [List.mem_map] at hd
      obtain ⟨s, _, rfl⟩ := hd
      by_cases h : s % 10 = 0
      · rw [if_pos h]; exact Nat.zero_le 1
      · rw [if_neg h]
    have hfold := (foldl_decAdd_tenths _ hds ⟨0, 0⟩ (Nat.zero_le 1)).2
    rw [hfold]
    have h0 : tvTenths ⟨0, 0⟩ = 0 := by
      show 0 * 10 ^ (1 - 0) = 0
      norm_num
    rw [h0, List.map_map]
    have hcomp : ∀ ns : List ℕ,
        (ns.map (tvTenths ∘ fun s => if s % 10 = 0 then (⟨s / 10, 0⟩ : DecV) else ⟨s, 1⟩)).sum
          = ns.sum := by
      intro ns
      induction ns with
      | nil => rfl
      | cons n ns' ih => simp [Function.comp, tvTenths_ofTenths, ih]
    rw [hcomp]
    omega
  have he1 :
      ((((secNums its).map tenthsStr).filterMap pyFloat).foldl decAdd ⟨0, 0⟩).e ≤ 1 := by
    rw [filterMap_pyFloat_tenths]
    refine (foldl_decAdd_tenths _ ?_ ⟨0, 0⟩ (Nat.zero_le 1)).1
    intro d hd
    rw [List.mem_map] at hd
    obtain ⟨s, _, rfl⟩ := hd
    by_cases h : s % 10 = 0
    · rw [if_pos h]; exact Nat.zero_le 1
    · rw [if_neg h]
  have hfmt := formatTotal_tenths _ he1
  rw [htot] at hfmt
  simp only [recalcTotalScore, hfa, hmapne, Bool.false_eq_true, if_false, hhs, hfmt]
  simp [renderDoc, headerLine, List.append_assoc]

/- ### Claim C1 (amended): the header total is the sum of the section scores -/

/-- **C1 (amended).** For a feedback document made of a `# 📝 SCORE: <T>/100`
header line followed by newline-separated lines, each either a well-formed
section-score line `N. NAME: S/10` or a filler line, where section names and
filler lines are inert for the section pattern (no colon, no newline), with
exactly ten section-score lines whose scores are half-point multiples (the
domain on which the decimal model is faithful to binary floating point),
`recalculate_total_score` rewrites the header total to exactly the arithmetic
sum of the ten scores — formatted as an integer when the sum is whole and to
one decimal place otherwise — and leaves the rest of the text unchanged.
The claim as stated over *every* text containing ten well-formed lines is
refuted by `c1_counterexample`: a fragment such as `* 11. extra: 5/10 bonus`
is not a well-formed section-score line yet still matches the section
pattern and is silently added to the total. -/
theorem c1_section_sum (T : Str) (its : List Item)
    (hT : numOkB T = true) (hok : ∀ i ∈ its, itemOkB i = true)
    (hlen : (secNums its).length = 10) (hhalf : ∀ s ∈ secNums its, s % 5 = 0) :
    recalcTotalScore (renderDoc T its) = renderDoc (fmtTenths (secNums its).sum) its := by
  have hne : secNums its ≠ [] := by
    intro h
    rw [h] at hlen
    simp at hlen
  have _ := hhalf
  exact recalc_renderDoc T its hT hok hne

/-- Ten section lines scoring 9.5, 8, 10, 7, 8.5, 9, 6.5, 10, 7.5, 5.5
(sum 81.5), with a filler line, as a concrete document. -/
def c1Its : List Item :=
  [Item.sec ⟨1, strOf "A", 95⟩, Item.sec ⟨2, strOf "B", 80⟩,
   Item.sec ⟨3, strOf "C", 100⟩, Item.sec ⟨4, strOf "D", 70⟩,
   Item.sec ⟨5, strOf "E", 85⟩, Item.sec ⟨6, strOf "F", 90⟩,
   Item.sec ⟨7, strOf "G", 65⟩, Item.sec ⟨8, strOf "H", 100⟩,
   Item.sec ⟨9, strOf "I", 75⟩, Item.sec ⟨10, strOf "J", 55⟩,
   Item.fill (strOf "Overall Summary")]

theorem c1_section_sum_witness :
    recalcTotalScore (renderDoc (strOf "0") c1Its)
      = renderDoc (fmtTenths (secNums c1Its).sum) c1Its :=
  c1_section_sum (strOf "0") c1Its (by decide) (by decide) (by decide) (by decide)

/- ### Claim C2 (amended): idempotence on scratch-free structured documents -/

/-- The free-text part of an item (the section name or the filler line). -/
def itemText : Item → Str
  | .sec L => L.name
  | .fill f => f

/-- An item whose free text has no `<` (so `clean_hidden_math` leaves it,
and any document built from such items, alone). -/
def noLtItemB (i : Item) : Bool := (itemText i).all (fun c => c ≠ '<')

/-- Character-level coverage of a rendered section line: every character is a
digit, one of `.`, ` `, `:`, `/`, or a character of the name. -/
theorem renderS_chars (L : SLine) (p : Char → Prop)
    (hd : ∀ c, c.isDigit = true → p c) (hdot : p '.') (hsp : p ' ') (hcol : p ':')
    (hsl : p '/') (hnm : ∀ c ∈ L.name, p c) : ∀ c ∈ renderS L, p c := by
  intro c hc
  simp only [renderS, List.mem_append, List.mem_cons, List.not_mem_nil, or_false] at hc
  rcases hc with hc | hc | hc | hc
  · exact hd c (natDigits_digits L.num c hc)
  · rw [hc]; exact hdot
  · rw [hc]; exact hsp
  · rcases hc with hc | hc | hc | hc
    · exact hnm c hc
    · rw [hc]; exact hcol
    · rw [hc]; exact hsp
    · rcases hc with hc | hc | hc | hc
      · have hdd : isDigitDotC c = true := by
          have h1 : tenthsStr L.sc = fmtTenths L.sc := rfl
          rw [h1] at hc
          exact (numOk_spec (fmtTenths_ok L.sc)).2 c hc
        simp only [isDigitDotC, Bool.or_eq_true, beq_iff_eq] at hdd
        rcases hdd with hdd | hdd
        · exact hd c hdd
        · rw [hdd]; exact hdot
      · rw [hc]; exact hsl
      · rw [hc]; exact hd '1' (by decide)
      · rw [hc]; exact hd '0' (by decide)

/-- Character-level coverage of the rendered lines. -/
theorem renderLines_chars (its : List Item) (p : Char → Prop)
    (hd : ∀ c, c.isDigit = true → p c) (hdot : p '.') (hsp : p ' ') (hcol : p ':')
    (hsl : p '/') (hnl : p '\n')
    (hitem : ∀ i ∈ its, ∀ c ∈ itemText i, p c) : ∀ c ∈ renderLines its, p c := by
  intro c hc
  simp only [renderLines, List.mem_flatten, List.mem_map] at hc
  obtain ⟨l, ⟨i, hi, rfl⟩, hcl⟩ := hc
  rcases List.mem_cons.mp hcl with rfl | hcl
  · exact hnl
  · cases i with
    | sec L =>
      exact renderS_chars L p hd hdot hsp hcol hsl (hitem (Item.sec L) hi) c hcl
    | fill f =>
      exact hitem (Item.fill f) hi c hcl

theorem stripBlocks_no_lt (oR c : Str) (t : Str) (h : ∀ x ∈ t, x ≠ '<') :
    stripBlocks '<' oR c t = t := by
  have := stripBlocks_skip '<' oR c t h []
  simpa [stripBlocks_nil] using this

theorem cleanHiddenMath_no_lt (t : Str) (h : ∀ x ∈ t, x ≠ '<') :
    cleanHiddenMath t = pyStrip t := by
  unfold cleanHiddenMath
  rw [stripBlocks_no_lt open1R close1 t h, stripBlocks_no_lt open2R close2 t h]

/-- `str.strip()` is the identity on a text whose first character is not
whitespace and whose last character is `0`. -/
theorem pyStrip_id (t : Str) (c0 : Char) (r : Str) (ht : t = c0 :: r)
    (hc0 : isSpaceC c0 = false) (hlast : t.getLast? = some '0') : pyStrip t = t := by
  unfold pyStrip
  have h1 : t.dropWhile isSpaceC = t := by
    rw [ht]
    simp [List.dropWhile_cons, hc0]
  rw [h1]
  cases hrev : t.reverse with
  | nil =>
    rw [ht] at hrev
    simp at hrev
  | cons a s =>
    have ha : a = '0' := by
      have hh := List.head?_reverse t
      rw [hrev, hlast] at hh
      simpa using hh
    have h2 : (a :: s).dropWhile isSpaceC = a :: s := by
      simp [List.dropWhile_cons, ha, show isSpaceC '0' = false from by decide]
    rw [h2, ← hrev, List.reverse_reverse]

theorem renderS_getLast (L : SLine) : (renderS L).getLast? = some '0' := by
  have h : renderS L
      = (natDigits L.num ++ '.' :: ' ' :: (L.name ++ ':' :: ' ' :: (tenthsStr L.sc ++ ['/', '1'])))
        ++ ['0'] := by
    simp [renderS]
  rw [h, List.getLast?_concat]

theorem renderDoc_getLast (T : Str) (pre : List Item) (L : SLine) :
    (renderDoc T (pre ++ [Item.sec L])).getLast? = some '0' := by
  have h : renderDoc T (pre ++ [Item.sec L])
      = (headerLine T ++ renderLines pre
          ++ '\n' :: (natDigits L.num ++ '.' :: ' ' :: (L.name ++ ':' :: ' ' :: (tenthsStr L.sc ++ ['/', '1']))))
        ++ ['0'] := by
    simp [renderDoc, renderLines, renderItem, renderS, List.append_assoc]
  rw [h, List.getLast?_concat]

theorem secNums_append (a b : List Item) : secNums (a ++ b) = secNums a ++ secNums b := by
  simp [secNums, List.filterMap_append]

/-- No character of a rendered document with a digit-dot header total and
`<`-free items is `<`. -/
theorem renderDoc_no_lt (T : Str) (its : List Item) (hT : ∀ c ∈ T, isDigitDotC c = true)
    (hni : ∀ i ∈ its, noLtItemB i = true) : ∀ c ∈ renderDoc T its, c ≠ '<' := by
  intro c hc
  simp only [renderDoc, headerLine, List.mem_append, List.mem_cons, List.not_mem_nil,
    or_false] at hc
  have hdig : ∀ x : Char, x.isDigit = true → x ≠ '<' := by
    intro x hx heq
    rw [heq] at hx
    exact absurd hx (by decide)
  rcases hc with ((hc | hc) | hc) | hc
  · exact all_ne_of_all (show (strOf "# 📝 SCORE: ").all (fun x => x ≠ '<') = true from by decide) c hc
  · have hdd := hT c hc
    simp only [isDigitDotC, Bool.or_eq_true, beq_iff_eq] at hdd
    rcases hdd with hdd | hdd
    · exact hdig c hdd
    · rw [hdd]; decide
  · rcases hc with hc | hc | hc | hc <;> · rw [hc]; decide
  · refine renderLines_chars its (fun x => x ≠ '<') hdig (by decide) (by decide) (by decide)
      (by decide) (by decide) ?_ c hc
    intro i hi x hx
    exact all_ne_of_all (hni i hi) x hx

/-- **C2 (amended).** On scratch-free structured feedback documents — a
`# 📝 SCORE: <T>/100` header line followed by section-score and filler lines
whose free text is inert for the section pattern (no colon, no newline) and
contains no `<`, ending in a section-score line, with half-point scores — the
Post-Processor (`clean_hidden_math` then `recalculate_total_score`) is
idempotent: the second application reproduces the first's output exactly.
The claim as stated over *every* input text is refuted by
`c2_counterexample`: when the header region itself matches the section
pattern, the rewritten header changes the set of section matches, and the
second application computes a different total (100 → 101). -/
theorem c2_idempotent (T : Str) (pre : List Item) (L : SLine)
    (hT : numOkB T = true)
    (hok : ∀ i ∈ pre ++ [Item.sec L], itemOkB i = true)
    (hni : ∀ i ∈ pre ++ [Item.sec L], noLtItemB i = true)
    (hhalf : ∀ s ∈ secNums (pre ++ [Item.sec L]), s % 5 = 0) :
    postProcess (postProcess (renderDoc T (pre ++ [Item.sec L])))
      = postProcess (renderDoc T (pre ++ [Item.sec L])) := by
  have _ := hhalf
  set its := pre ++ [Item.sec L] with hits
  have hTc := (numOk_spec hT).2
  have hlast : (renderDoc T its).getLast? = some '0' := by
    rw [hits]
    exact renderDoc_getLast T pre L
  have hne : secNums its ≠ [] := by
    rw [hits, secNums_append]
    simp [secNums]
  have hlt := renderDoc_no_lt T its hTc hni
  have hcons : renderDoc T its
      = '#' :: (((strOf " 📝 SCORE: " ++ T) ++ '/' :: '1' :: '0' :: '0' :: []) ++ renderLines its) := rfl
  have hclean1 : cleanHiddenMath (renderDoc T its) = renderDoc T its := by
    rw [cleanHiddenMath_no_lt _ hlt]
    exact pyStrip_id _ _ _ hcons (by decide) hlast
  have hrec1 := recalc_renderDoc T its hT hok hne
  have hT' := fmtTenths_ok (secNums its).sum
  have hlast' : (renderDoc (fmtTenths (secNums its).sum) its).getLast? = some '0' := by
    rw [hits]
    exact renderDoc_getLast _ pre L
  have hlt' := renderDoc_no_lt _ its (numOk_spec hT').2 hni
  have hcons' : renderDoc (fmtTenths (secNums its).sum) its
      = '#' :: (((strOf " 📝 SCORE: " ++ fmtTenths (secNums its).sum) ++ '/' :: '1' :: '0' :: '0' :: [])
        ++ renderLines its) := rfl
  have hclean2 : cleanHiddenMath (renderDoc (fmtTenths (secNums its).sum) its)
      = renderDoc (fmtTenths (secNums its).sum) its := by
    rw [cleanHiddenMath_no_lt _ hlt']
    exact pyStrip_id _ _ _ hcons' (by decide) hlast'
  have hrec2 := recalc_renderDoc _ its hT' hok hne
  simp only [postProcess]
  rw [hclean1, hrec1, hclean2, hrec2]

theorem c2_idempotent_witness :
    postProcess (postProcess (renderDoc (strOf "85")
        ([Item.sec ⟨1, strOf "A", 95⟩] ++ [Item.sec ⟨2, strOf "B", 80⟩])))
      = postProcess (renderDoc (strOf "85")
        ([Item.sec ⟨1, strOf "A", 95⟩] ++ [Item.sec ⟨2, strOf "B", 80⟩])) :=
  c2_idempotent (strOf "85") [Item.sec ⟨1, strOf "A", 95⟩] ⟨2, strOf "B", 80⟩
    (by decide) (by decide) (by decide) (by decide)

/- ### Claim C7: a missing header is synthesized, no scores leave the text alone -/

theorem headerSplit_none (t : Str) (h : ∀ c ∈ t, c ≠ '#') : headerSplit t = none := by
  induction t with
  | nil => rfl
  | cons c cs ih =>
    have hha : headerAt (c :: cs) = none := by
      show (if c = '#' then headerBody cs else none) = none
      rw [if_neg (h c (List.mem_cons_self c cs))]
    have hih := ih (fun x hx => h x (List.mem_cons_of_mem c hx))
    simp only [headerSplit, hha, hih]

/-- The code's running total over rendered half-point scores, formatted: it is
exactly the formatted arithmetic sum. -/
theorem total_of_tenths (ns : List ℕ) :
    formatTotal (((ns.map tenthsStr).filterMap pyFloat).foldl decAdd ⟨0, 0⟩)
      = fmtTenths ns.sum := by
  rw [filterMap_pyFloat_tenths]
  have hds : ∀ d ∈ ns.map
      (fun s => if s % 10 = 0 then (⟨s / 10, 0⟩ : DecV) else ⟨s, 1⟩), d.e ≤ 1 := by
    intro d hd
    rw [List.mem_map] at hd
    obtain ⟨s, _, rfl⟩ := hd
    by_cases h : s % 10 = 0
    · rw [if_pos h]; exact Nat.zero_le 1
    · rw [if_neg h]
  have hfold := foldl_decAdd_tenths _ hds ⟨0, 0⟩ (Nat.zero_le 1)
  rw [formatTotal_tenths _ hfold.1, hfold.2]
  have h0 : tvTenths ⟨0, 0⟩ = 0 := by
    show 0 * 10 ^ (1 - 0) = 0
    norm_num
  rw [h0, List.map_map]
  have hcomp : ∀ ms : List ℕ,
      (ms.map (tvTenths ∘ fun s => if s % 10 = 0 then (⟨s / 10, 0⟩ : DecV) else ⟨s, 1⟩)).sum
        = ms.sum := by
    intro ms
    induction ms with
    | nil => rfl
    | cons n ms' ih => simp [Function.comp, tvTenths_ofTenths, ih]
  rw [hcomp]
  congr 1
  omega

/-- An item whose free text has no `#` (so the header pattern cannot fire
anywhere in a headerless document built from such items). -/
def noHashItemB (i : Item) : Bool := (itemText i).all (fun c => c ≠ '#')

/-- **C7.** A feedback text with no `#` anywhere — so the header pattern
cannot match — made of a well-formed section-score line `N. NAME: S/10`
followed by further section-score and inert filler lines, receives a freshly
synthesized `# 📝 SCORE: <sum>/100` header prepended to the unchanged text,
where `<sum>` is exactly the formatted arithmetic sum of all section scores
(half-point scores; the domain where the decimal model is faithful to binary
floating point); and on any text in which the section pattern finds nothing,
`recalculate_total_score` returns the text unchanged. -/
theorem c7_prepend_header (L : SLine) (its : List Item)
    (hname : lineOkB L.name = true)
    (hnh : ∀ c ∈ L.name, c ≠ '#')
    (hok : ∀ i ∈ its, itemOkB i = true)
    (hih : ∀ i ∈ its, noHashItemB i = true)
    (hhalf : ∀ s ∈ L.sc :: secNums its, s % 5 = 0) :
    (recalcTotalScore (renderS L ++ renderLines its)
      = strOf "# 📝 SCORE: " ++ fmtTenths (L.sc + (secNums its).sum) ++ strOf "/100\n\n"
        ++ (renderS L ++ renderLines its))
    ∧ ∀ u, findAllSections u = [] → recalcTotalScore u = u := by
  have _ := hhalf
  constructor
  · have hfa : findAllSections (renderS L ++ renderLines its)
        = tenthsStr L.sc :: (secNums its).map tenthsStr := by
      rw [findAll_renderS L hname (renderLines its), findAll_renderLines its hok]
    have hdig : ∀ x : Char, x.isDigit = true → x ≠ '#' := by
      intro x hx heq
      rw [heq] at hx
      exact absurd hx (by decide)
    have hh : ∀ c ∈ renderS L ++ renderLines its, c ≠ '#' := by
      intro c hc
      rcases List.mem_append.mp hc with hc | hc
      · exact renderS_chars L (fun x => x ≠ '#') hdig (by decide) (by decide) (by decide)
          (by decide) hnh c hc
      · exact renderLines_chars its (fun x => x ≠ '#') hdig (by decide) (by decide)
          (by decide) (by decide) (by decide)
          (fun i hi x hx => all_ne_of_all (hih i hi) x hx) c hc
    have hhs := headerSplit_none _ hh
    have ht := total_of_tenths (L.sc :: secNums its)
    simp only [List.map_cons] at ht
    simp only [recalcTotalScore, hfa, hhs, List.isEmpty_cons, Bool.false_eq_true, if_false]
    rw [ht, List.sum_cons]
  · intro u hu
    simp [recalcTotalScore, hu]

theorem c7_prepend_header_witness :
    recalcTotalScore (renderS ⟨1, strOf "A", 95⟩ ++ renderLines [Item.sec ⟨2, strOf "B", 80⟩])
      = strOf "# 📝 SCORE: "
        ++ fmtTenths (95 + (secNums [Item.sec ⟨2, strOf "B", 80⟩]).sum) ++ strOf "/100\n\n"
        ++ (renderS ⟨1, strOf "A", 95⟩ ++ renderLines [Item.sec ⟨2, strOf "B", 80⟩]) :=
  (c7_prepend_header ⟨1, strOf "A", 95⟩ [Item.sec ⟨2, strOf "B", 80⟩]
    (by decide) (by decide) (by decide) (by decide) (by decide)).1

/- ### The CSV parser (`parse_feedback_for_csv`) -/

/-- The character class `[\r\n]`. -/
def isNlC (c : Char) : Bool := c = '\r' || c = '\n'

/-- `re.sub(r'[\r\n]+', ' ', s)`: collapse every maximal run of CR/LF
characters into a single space (fuel = length; each step consumes a char). -/
def collapseNLAux : ℕ → Str → Str
  | 0, _ => []
  | _ + 1, [] => []
  | fuel + 1, c :: cs =>
    if isNlC c then ' ' :: collapseNLAux fuel (cs.dropWhile isNlC)
    else c :: collapseNLAux fuel cs

def collapseNL (t : Str) : Str := collapseNLAux t.length t

/-- `str.title()` (ASCII): a letter after a non-letter is uppercased, a letter
after a letter is lowercased, other characters pass through. -/
def pyTitleAux : Bool → Str → Str
  | _, [] => []
  | prev, c :: cs =>
    if c.isAlpha then
      (if prev then c.toLower else c.toUpper) :: pyTitleAux true cs
    else c :: pyTitleAux false cs

def pyTitle (s : Str) : Str := pyTitleAux false s

/-- Case-insensitive literal prefix match (ASCII fold), returning the rest of
the text after the literal. -/
def ciPrefix : Str → Str → Option Str
  | [], t => some t
  | _ :: _, [] => none
  | p :: ps, c :: cs => if c.toLower = p.toLower then ciPrefix ps cs else none

/-- The lookahead `(?=1\.|DETAILED)` of the overall-summary pattern
(IGNORECASE). -/
def sumLookahead (t : Str) : Bool :=
  (match t with
   | '1' :: '.' :: _ => true
   | _ => false)
  || (ciPrefix (strOf "DETAILED") t).isSome

/-- The lazy group `(.*?)(?=1\.|DETAILED)` (DOTALL): shortest prefix whose end
satisfies the lookahead; fails (forcing backtracking) when no position up to
the end of the text does. -/
def sumGroupScan : Str → Option Str
  | [] => none
  | c :: cs =>
    if sumLookahead (c :: cs) then some []
    else
      match sumGroupScan cs with
      | some g => some (c :: g)
      | none => none

/-- `\s*\n(.*?)(?=1\.|DETAILED)` with the greedy `\s*` backtracking order:
longer whitespace prefixes (later `\n` positions) are tried first. -/
def sumWsNl : Str → Option Str
  | [] => none
  | c :: cs =>
    if isSpaceC c then
      match sumWsNl cs with
      | some g => some g
      | none => if c = '\n' then sumGroupScan cs else none
    else none

/-- The lazy `.*?:` of the summary pattern (DOTALL): the engine tries each
colon from the left, and on failure of the rest of the pattern resumes the
scan past that colon. -/
def sumColonGo : Str → Option Str
  | [] => none
  | c :: cs =>
    if c = ':' then
      match sumWsNl cs with
      | some g => some g
      | none => sumColonGo cs
    else sumColonGo cs

/-- `re.search(r"OVERALL SUMMARY.*?:\s*\n(.*?)(?=1\.|DETAILED)", DOTALL |
IGNORECASE)`, returning group 1 of the leftmost match. -/
def summarySearch : Str → Option Str
  | [] => none
  | c :: cs =>
    match ciPrefix (strOf "OVERALL SUMMARY") (c :: cs) with
    | some rest =>
      match sumColonGo rest with
      | some g => some g
      | none => summarySearch cs
    | none => summarySearch cs

/-- The character class `[A-Za-z\s&]` of the section-name group. -/
def nameClassC (c : Char) : Bool := c.isAlpha || c = '&' || isSpaceC c

/-- `\s+([A-Za-z\s&]+):` — the greedy whitespace run, then the greedy name
run, then the colon. Because `\s` is inside the name class, when the name run
after the whitespace is empty but a colon follows, the engine backtracks the
`\s+` by one character and the name captures just that final whitespace
character (possible only when the whitespace run has length at least two).
All other backtracks re-land the colon test on the same position, so no
further case arises. -/
def nameColon (t : Str) : Option (Str × Str) :=
  let W := t.takeWhile isSpaceC
  let rest := t.dropWhile isSpaceC
  if W.isEmpty then none
  else
    let N := rest.takeWhile nameClassC
    match rest.dropWhile nameClassC with
    | ':' :: r =>
      if N.isEmpty then
        if 2 ≤ W.length then some ([W.getLastD ' '], r) else none
      else some (N, r)
    | _ => none

/-- `\s+([\d\.]+)/10` — the classes are disjoint and shrinking the score run
exposes a digit or dot where `/` is required, so the greedy runs are exact. -/
def scoreSlash (t : Str) : Option (Str × Str) :=
  let W := t.takeWhile isSpaceC
  let rest := t.dropWhile isSpaceC
  if W.isEmpty then none
  else
    let D := rest.takeWhile isDigitDotC
    if D.isEmpty then none
    else
      match rest.dropWhile isDigitDotC with
      | '/' :: '1' :: '0' :: r => some (D, r)
      | _ => none

/-- The lookahead `(?=\n\d+\.|\Z|💡)` of the section pattern. -/
def csvLookahead (t : Str) : Bool :=
  match t with
  | [] => true
  | c :: r =>
    if c = '💡' then true
    else if c = '\n' then
      !(r.takeWhile isDigitC).isEmpty
        && (match r.dropWhile isDigitC with | '.' :: _ => true | _ => false)
    else false

/-- The lazy body group `(.*?)(?=\n\d+\.|\Z|💡)` (DOTALL), returning the
capture and the rest of the text (the lookahead is not consumed). -/
def csvGroupScan : Str → Option (Str × Str)
  | [] => some ([], [])
  | c :: cs =>
    if csvLookahead (c :: cs) then some ([], c :: cs)
    else
      match csvGroupScan cs with
      | some (g, r) => some (c :: g, r)
      | none => none

/-- `\s*\n(.*?)(?=\n\d+\.|\Z|💡)` with the greedy `\s*` backtracking order. -/
def csvWsNl : Str → Option (Str × Str)
  | [] => none
  | c :: cs =>
    if isSpaceC c then
      match csvWsNl cs with
      | some gr => some gr
      | none => if c = '\n' then csvGroupScan cs else none
    else none

/-- One attempt of the section pattern
`(\d+)\.\s+([A-Za-z\s&]+):\s+([\d\.]+)/10\s*\n(.*?)(?=\n\d+\.|\Z|💡)` at the
start of the text: the four captures and the rest of the text after the
match. -/
def csvMatchAt (t : Str) : Option ((Str × Str × Str × Str) × Str) :=
  let D1 := t.takeWhile isDigitC
  if D1.isEmpty then none
  else
    match t.dropWhile isDigitC with
    | '.' :: r1 =>
      match nameColon r1 with
      | some (nm, r2) =>
        match scoreSlash r2 with
        | some (sc, r3) =>
          match csvWsNl r3 with
          | some (body, r4) => some ((D1, nm, sc, body), r4)
          | none => none
        | none => none
      | none => none
    | _ => none

/-- `re.findall` for the section pattern: scan left to right, resuming after
each match (fuel = length; a match consumes at least one character). -/
def csvFindAllAux : ℕ → Str → List (Str × Str × Str × Str)
  | 0, _ => []
  | fuel + 1, t =>
    match t with
    | [] => []
    | c :: cs =>
      match csvMatchAt (c :: cs) with
      | some (m, rest) => m :: csvFindAllAux fuel rest
      | none => csvFindAllAux fuel cs

def csvFindAll (t : Str) : List (Str × Str × Str × Str) := csvFindAllAux t.length t

/-- `parse_feedback_for_csv`: the returned record, modeled as the
insertion-ordered list of key/value pairs. `re.sub(r'[*#]', '', text)` is the
filter; the summary `re.search` on fixed patterns cannot raise in this
embedding, so the `except` arm that would store an inline parsing-error
string is dead code here. -/
def parseFeedbackForCsv (t : Str) : List (Str × Str) :=
  let cleanText := t.filter (fun c => !(c = '*' || c = '#'))
  let summaryEntry :=
    match summarySearch cleanText with
    | some raw => (strOf "Overall Summary", collapseNL (pyStrip raw))
    | none => (strOf "Overall Summary", strOf "Summary not found")
  let sections := csvFindAll cleanText
  summaryEntry ::
    (sections.map (fun m =>
      let colName := pyTitle (pyStrip m.2.1)
      [(colName ++ strOf " Score", m.2.2.1),
       (colName ++ strOf " Feedback", collapseNL (pyStrip m.2.2.2))])).flatten

example : summarySearch (strOf "OVERALL SUMMARY:\nGood work overall.\n1. A") = some (strOf "Good work overall.\n") := by decide

example : parseFeedbackForCsv (strOf "## OVERALL SUMMARY:\nNice.\n1. DATA: 9.5/10\nSolid table.\n") =
    [(strOf "Overall Summary", strOf "Nice."),
     (strOf "Data Score", strOf "9.5"),
     (strOf "Data Feedback", strOf "Solid table.")] := by decide

/-- **C10.** On every input text, the record returned by
`parse_feedback_for_csv` contains the key `Overall Summary`: it maps to the
parsed summary (newline runs collapsed, surrounding whitespace stripped) when
the overall-summary pattern matches the star/hash-cleaned text, and to the
fixed fallback `Summary not found` otherwise — the key is never absent.
(Later section entries use keys ending in ` Score` or ` Feedback`, which can
never equal `Overall Summary`; the inline parsing-error arm guards an
exception the fixed-pattern search cannot raise.) -/
theorem c10_summary_key_present (t : Str) :
    (parseFeedbackForCsv t).lookup (strOf "Overall Summary")
      = some (match summarySearch (t.filter (fun c => !(c = '*' || c = '#'))) with
          | some raw => collapseNL (pyStrip raw)
          | none => strOf "Summary not found") := by
  simp only [parseFeedbackForCsv]
  cases h : summarySearch (t.filter (fun c => !(c = '*' || c = '#'))) <;>
    simp [List.lookup]

/- ### Claim C5: the retry loop of `grade_submission` -/

/-- The outcome of one `client.messages.create` call, as `grade_submission`
distinguishes them: success, `anthropic.RateLimitError`,
`anthropic.APIStatusError` with status 529 (overloaded),
`anthropic.APIStatusError` with any other status, or any other exception. -/
inductive SvcResp where
  | ok (raw : Str)
  | rateLimited (msg : Str)
  | overloaded (msg : Str)
  | apiErr (msg : Str)
  | otherExc (msg : Str)

/-- `f"⚠️ Error: {str(e)}"`. -/
def errStr (m : Str) : Str := strOf "⚠️ Error: " ++ m

/-- The `for attempt in range(max_retries)` body: success returns the
post-processed text; a rate limit or a 529 sleeps `retry_delay * (attempt+1)`
seconds and continues; any other `APIStatusError` or exception returns the
error string at once. Falling off the loop returns Python `None`, modeled as
`none`; the second component records the sleeps performed. -/
def gradeAttempts (svc : ℕ → SvcResp) : ℕ → ℕ → Option Str × List ℕ
  | 0, _ => (none, [])
  | remaining + 1, attempt =>
    match svc attempt with
    | .ok raw => (some (postProcess raw), [])
    | .rateLimited _ =>
      let r := gradeAttempts svc remaining (attempt + 1)
      (r.1, 5 * (attempt + 1) :: r.2)
    | .overloaded _ =>
      let r := gradeAttempts svc remaining (attempt + 1)
      (r.1, 5 * (attempt + 1) :: r.2)
    | .apiErr m => (some (errStr m), [])
    | .otherExc m => (some (errStr m), [])

/-- `grade_submission` from the first service call on (`max_retries = 5`,
`retry_delay = 5`). -/
def gradeSubmission (svc : ℕ → SvcResp) : Option Str × List ℕ :=
  gradeAttempts svc 5 0

/-- **C5.** The Grading Client retries transient failures (rate limit, 529
overload) exactly 5 times with linear backoff 5·1, 5·2, …, 5·5 seconds, and
returns any other API error or exception immediately as a `⚠️ Error: …`
string — but when all 5 attempts are exhausted by transient failures it falls
off the retry loop and returns Python `None`, not the per-file error string
the specification promises: no string is surfaced at all. -/
theorem c5_retry_exhaustion (m : Str) :
    gradeSubmission (fun _ => SvcResp.rateLimited m) = (none, [5, 10, 15, 20, 25])
    ∧ gradeSubmission (fun _ => SvcResp.overloaded m) = (none, [5, 10, 15, 20, 25])
    ∧ gradeSubmission (fun _ => SvcResp.apiErr m) = (some (errStr m), [])
    ∧ gradeSubmission (fun _ => SvcResp.otherExc m) = (some (errStr m), []) :=
  ⟨rfl, rfl, rfl, rfl⟩

/- ### Claim C6: the gradebook upsert of `autosave_report` -/

/-- A graded item as `autosave_report` receives it
(`item['Filename']`, `item['Score']`, `item['Feedback']`). -/
structure GradeItem where
  filename : Str
  score : Str
  feedback : Str

/-- One gradebook row: the `Filename` and `Overall Score` columns plus the
parsed per-section columns. -/
structure Row where
  filename : Str
  score : Str
  fields : List (Str × Str)

/-- The `row_data` built for an item: filename, overall score, and the parsed
feedback columns. -/
def mkRow (it : GradeItem) : Row :=
  ⟨it.filename, it.score, parseFeedbackForCsv it.feedback⟩

/-- The CSV update of `autosave_report`: drop every existing row with the
item's filename (`existing_df[existing_df['Filename'] != item['Filename']]`),
then append the new row (`pd.concat`). -/
def autosaveUpsert (table : List Row) (it : GradeItem) : List Row :=
  table.filter (fun r => decide (r.filename ≠ it.filename)) ++ [mkRow it]

/-- **C6.** The gradebook keeps filenames unique: after `autosave_report`
runs on any table, exactly the single new row carries the item's filename,
and grading a filename twice leaves one row for it — the second run's — not
two. -/
theorem c6_gradebook_upsert (table : List Row) (i1 i2 : GradeItem)
    (hsame : i1.filename = i2.filename) :
    (autosaveUpsert table i2).filter (fun r => decide (r.filename = i2.filename)) = [mkRow i2]
    ∧ autosaveUpsert (autosaveUpsert table i1) i2
      = table.filter (fun r => decide (r.filename ≠ i2.filename)) ++ [mkRow i2] := by
  constructor
  · unfold autosaveUpsert
    rw [List.filter_append, List.filter_filter]
    have h1 : table.filter
        (fun r => decide (r.filename = i2.filename) && decide (r.filename ≠ i2.filename)) = [] := by
      refine List.filter_eq_nil_iff.mpr ?_
      intro r hr
      by_cases h : r.filename = i2.filename <;> simp [h]
    rw [h1, List.nil_append]
    simp [mkRow]
  · unfold autosaveUpsert
    rw [List.filter_append, List.filter_filter]
    have h2 : ([mkRow i1]).filter (fun r => decide (r.filename ≠ i2.filename)) = [] := by
      simp [mkRow, hsame]
    rw [h2, List.append_nil]
    congr 1
    refine List.filter_congr ?_
    intro r hr
    rw [hsame]
    by_cases h : r.filename = i2.filename <;> simp [h]

theorem c6_gradebook_upsert_witness :
    ((autosaveUpsert [] ⟨strOf "a.pdf", strOf "80", strOf "fb2"⟩).filter
        (fun r => decide (r.filename = strOf "a.pdf")) = [mkRow ⟨strOf "a.pdf", strOf "80", strOf "fb2"⟩])
    ∧ autosaveUpsert (autosaveUpsert [] ⟨strOf "a.pdf", strOf "75", strOf "fb1"⟩)
        ⟨strOf "a.pdf", strOf "80", strOf "fb2"⟩
      = ([] : List Row).filter (fun r => decide (r.filename ≠ strOf "a.pdf"))
        ++ [mkRow ⟨strOf "a.pdf", strOf "80", strOf "fb2"⟩] :=
  c6_gradebook_upsert [] ⟨strOf "a.pdf", strOf "75", strOf "fb1"⟩
    ⟨strOf "a.pdf", strOf "80", strOf "fb2"⟩ rfl
